import Mathlib

/-!
Verification of the polyhedron geometry builder of `tylerneylon/truth`
(`util.js`, plus the demo scripts `dodecahedron.js` and `cuboctahedron.js`).

The JavaScript code is shallowly embedded here.  JS numbers are modelled as
exact real numbers (`ℝ`); the projection transforms, whose claims concern the
silent propagation of non-finite values (NaN / ±Infinity), are modelled over
`Option ℝ`, where `none` stands for a non-finite value.  The helper modules
`vector.js` and `matrix.js` are imported by `util.js` but are not part of the
repository snapshot; following the specification, `vector.dist` / `vector.len`
/ `vector.dot` are the Euclidean distance / norm / dot product and
`matrix.rotateXY a` is the standard rotation of the plane by the angle `a`.
Those definitions are marked `Modelled from the spec:` below.
-/

namespace Truth

/-- `isClose(a, b)` from util.js: `Math.abs(a - b) < 1e-5`. -/
def isClose (a b : ℝ) : Prop := |a - b| < 1 / 100000

/-- Modelled from the spec: `vector.js` is missing from the snapshot; per the
spec, `vector.dist` is the Euclidean distance.  `dist2` is its square, the sum
of the squared coordinate differences. -/
def dist2 (p q : List ℝ) : ℝ := ((p.zip q).map (fun ab => (ab.1 - ab.2) * (ab.1 - ab.2))).sum

/-- Modelled from the spec: Euclidean distance (`vector.dist`). -/
noncomputable def vdist (p q : List ℝ) : ℝ := Real.sqrt (dist2 p q)

/-- Modelled from the spec: Euclidean norm (`vector.len`) of a real vector. -/
noncomputable def vlen (p : List ℝ) : ℝ := Real.sqrt ((p.map (fun a => a * a)).sum)

/-- Modelled from the spec: dot product (`vector.dot`). -/
def vdot (p q : List ℝ) : ℝ := ((p.zip q).map (fun ab => ab.1 * ab.2)).sum

/-- The golden ratio, as computed in util.js: `(1 + Math.sqrt(5)) / 2`. -/
noncomputable def phi : ℝ := (1 + Real.sqrt 5) / 2

/-- The index pairs `(i, j)` with `i < j < n`, in the order produced by the
JS double loop `for (i = 0; i < n - 1; i++) for (j = i + 1; j < n; j++)`. -/
def pairsBelow (n : ℕ) : List (ℕ × ℕ) :=
  (List.range n).flatMap (fun i => (List.range' (i + 1) (n - (i + 1))).map (fun j => (i, j)))

/-- The index triples `(i, j, k)` with `i < j < k < n`, in the order of the JS
triple loop used for triangular faces. -/
def triplesBelow (n : ℕ) : List (ℕ × ℕ × ℕ) :=
  (List.range n).flatMap (fun i =>
    (List.range' (i + 1) (n - (i + 1))).flatMap (fun j =>
      (List.range' (j + 1) (n - (j + 1))).map (fun k => (i, j, k))))

theorem mem_pairsBelow {n i j : ℕ} : (i, j) ∈ pairsBelow n ↔ i < j ∧ j < n := by
  unfold pairsBelow
  simp only [List.mem_flatMap, List.mem_map, List.mem_range, List.mem_range'_1, Prod.mk.injEq]
  constructor
  · rintro ⟨a, ha, b, hb, h1, h2⟩
    subst h1; subst h2
    omega
  · rintro ⟨hij, hjn⟩
    exact ⟨i, by omega, j, by omega, rfl, rfl⟩

theorem mem_triplesBelow {n i j k : ℕ} :
    (i, j, k) ∈ triplesBelow n ↔ i < j ∧ j < k ∧ k < n := by
  unfold triplesBelow
  simp only [List.mem_flatMap, List.mem_map, List.mem_range, List.mem_range'_1, Prod.mk.injEq]
  constructor
  · rintro ⟨a, ha, b, hb, c, hc, h1, h2, h3⟩
    subst h1; subst h2; subst h3
    omega
  · rintro ⟨hij, hjk, hkn⟩
    exact ⟨i, by omega, j, by omega, k, by omega, rfl, rfl, rfl⟩

/-! ### Exact arithmetic in ℤ[√5]

All coordinates produced by the distance-matched generators lie in
`(1/k)·ℤ[√5]` for a scale factor `k ∈ {1, 2, 4}`.  `rv` realises an element of
`ℤ[√5]` as a real number; `low4`/`high4` give integer bounds on `10000 · rv x`
via the rational bracket `2.2360 ≤ √5 ≤ 2.2361`, making "is far from zero"
decidable.  This turns every `isClose` test of the generators into a decidable
test on exact integers. -/

/-- Elements `a + b·√5` with `a b : ℤ`. -/
abbrev Z5 := Zsqrtd 5

/-- Realization of an element of ℤ[√5] as a real number. -/
noncomputable def rv (z : Z5) : ℝ := z.re + z.im * Real.sqrt 5

theorem sqrt5_lb : (2236 : ℝ) / 1000 ≤ Real.sqrt 5 := by
  rw [Real.le_sqrt (by norm_num) (by norm_num)]
  norm_num

theorem sqrt5_ub : Real.sqrt 5 ≤ (22361 : ℝ) / 10000 := by
  rw [Real.sqrt_le_iff]
  norm_num

theorem rv_mk (a b : ℤ) : rv ⟨a, b⟩ = a + b * Real.sqrt 5 := rfl

theorem rv_sub (z w : Z5) : rv (z - w) = rv z - rv w := by
  unfold rv
  rw [Zsqrtd.sub_re, Zsqrtd.sub_im]
  push_cast
  ring

theorem rv_add (z w : Z5) : rv (z + w) = rv z + rv w := by
  unfold rv
  rw [Zsqrtd.add_re, Zsqrtd.add_im]
  push_cast
  ring

theorem rv_mul (z w : Z5) : rv (z * w) = rv z * rv w := by
  unfold rv
  rw [Zsqrtd.mul_re, Zsqrtd.mul_im]
  have h5 : Real.sqrt 5 * Real.sqrt 5 = 5 := Real.mul_self_sqrt (by norm_num)
  push_cast
  linear_combination (-(z.im * w.im : ℝ)) * h5

theorem rv_zero : rv 0 = 0 := by
  unfold rv
  norm_num [Zsqrtd.zero_re, Zsqrtd.zero_im]

theorem rv_injective : Function.Injective rv := by
  intro x y h
  unfold rv at h
  by_cases him : x.im = y.im
  · have : (x.re : ℝ) = y.re := by
      rw [him] at h
      linarith
    have : x.re = y.re := by exact_mod_cast this
    exact Zsqrtd.ext this him
  · exfalso
    have h5 : Irrational (Real.sqrt 5) := by
      simpa using (Nat.prime_five.irrational_sqrt)
    have himZ : y.im - x.im ≠ 0 := sub_ne_zero.mpr (fun hh => him hh.symm)
    have hne : ((y.im : ℝ) - (x.im : ℝ)) ≠ 0 := by
      have h' := (Int.cast_ne_zero (α := ℝ)).mpr himZ
      push_cast at h'
      exact h'
    have hval : Real.sqrt 5 = ((x.re : ℝ) - y.re) / ((y.im : ℝ) - x.im) := by
      field_simp
      linear_combination -h
    rw [hval] at h5
    exact h5 ⟨((x.re - y.re : ℚ)) / ((y.im - x.im : ℚ)), by push_cast; norm_num⟩

/-- Integer lower bound on `10000 · rv x`. -/
def low4 (x : Z5) : ℤ :=
  10000 * x.re + (if 0 ≤ x.im then 22360 * x.im else 22361 * x.im)

/-- Integer upper bound on `10000 · rv x`. -/
def high4 (x : Z5) : ℤ :=
  10000 * x.re + (if 0 ≤ x.im then 22361 * x.im else 22360 * x.im)

theorem low4_le (x : Z5) : (low4 x : ℝ) ≤ 10000 * rv x := by
  unfold low4 rv
  rcases le_or_lt 0 x.im with h | h
  · rw [if_pos h]
    have hc : (0:ℝ) ≤ (x.im : ℝ) := by exact_mod_cast h
    have key := mul_le_mul_of_nonneg_left sqrt5_lb hc
    push_cast
    linarith
  · rw [if_neg (not_le.mpr h)]
    have hc : (x.im : ℝ) ≤ 0 := by exact_mod_cast h.le
    have key := mul_le_mul_of_nonpos_left sqrt5_ub hc
    push_cast
    linarith

theorem le_high4 (x : Z5) : 10000 * rv x ≤ (high4 x : ℝ) := by
  unfold high4 rv
  rcases le_or_lt 0 x.im with h | h
  · rw [if_pos h]
    have hc : (0:ℝ) ≤ (x.im : ℝ) := by exact_mod_cast h
    have key := mul_le_mul_of_nonneg_left sqrt5_ub hc
    push_cast
    linarith
  · rw [if_neg (not_le.mpr h)]
    have hc : (x.im : ℝ) ≤ 0 := by exact_mod_cast h.le
    have key := mul_le_mul_of_nonpos_left sqrt5_lb hc
    push_cast
    linarith

/-- Decidable test that `|rv x| ≥ d / 10000`. -/
def farCheck (x : Z5) (d : ℤ) : Bool :=
  decide (d ≤ low4 x) || decide (high4 x ≤ -d)

theorem farCheck_sound {x : Z5} {d : ℤ} (h : farCheck x d = true) :
    (d : ℝ) / 10000 ≤ |rv x| := by
  unfold farCheck at h
  rcases Bool.or_eq_true_iff.mp h with h' | h'
  · have h1 : (d : ℝ) ≤ low4 x := by exact_mod_cast of_decide_eq_true h'
    have h2 := low4_le x
    have : (d : ℝ) / 10000 ≤ rv x := by linarith
    exact this.trans (le_abs_self _)
  · have h1 : (high4 x : ℝ) ≤ -d := by exact_mod_cast of_decide_eq_true h'
    have h2 := le_high4 x
    have : (d : ℝ) / 10000 ≤ -rv x := by linarith
    exact this.trans (neg_le_abs _)

/-- The master comparison: for `0 ≤ a ≤ 16` and `0 ≤ e ≤ 4` that are either
equal or at least `6·10⁻⁵` apart, `isClose (√a) (√e)` holds iff `a = e`. -/
theorem isClose_sqrt_iff {a e : ℝ} (ha : 0 ≤ a) (he : 0 ≤ e) (ha16 : a ≤ 16) (he4 : e ≤ 4)
    (h : a = e ∨ 6 / 100000 ≤ |a - e|) :
    isClose (Real.sqrt a) (Real.sqrt e) ↔ a = e := by
  constructor
  · intro hc
    by_contra hne
    rcases h with h | hgap
    · exact hne h
    unfold isClose at hc
    have hsum6 : Real.sqrt a + Real.sqrt e ≤ 6 := by
      have h1 : Real.sqrt a ≤ 4 := by
        rw [show (4:ℝ) = Real.sqrt 16 by
          rw [show (16:ℝ) = 4 ^ 2 by norm_num, Real.sqrt_sq (by norm_num : (0:ℝ) ≤ 4)]]
        exact Real.sqrt_le_sqrt ha16
      have h2 : Real.sqrt e ≤ 2 := by
        rw [show (2:ℝ) = Real.sqrt 4 by
          rw [show (4:ℝ) = 2 ^ 2 by norm_num, Real.sqrt_sq (by norm_num : (0:ℝ) ≤ 2)]]
        exact Real.sqrt_le_sqrt he4
      linarith
    have hsq : (Real.sqrt a - Real.sqrt e) * (Real.sqrt a + Real.sqrt e) = a - e := by
      have h1 := Real.mul_self_sqrt ha
      have h2 := Real.mul_self_sqrt he
      linear_combination h1 - h2
    have habs : |Real.sqrt a - Real.sqrt e| * (Real.sqrt a + Real.sqrt e) = |a - e| := by
      rw [← hsq, abs_mul,
        abs_of_nonneg (show (0:ℝ) ≤ Real.sqrt a + Real.sqrt e by positivity)]
    have hpos : 0 < Real.sqrt a + Real.sqrt e := by
      rcases lt_or_eq_of_le (show (0:ℝ) ≤ Real.sqrt a + Real.sqrt e by positivity) with h' | h'
      · exact h'
      · exfalso
        rw [← h'] at habs
        simp only [mul_zero] at habs
        rw [← habs] at hgap
        norm_num at hgap
    have hX : |Real.sqrt a - Real.sqrt e| * (Real.sqrt a + Real.sqrt e) < 1 / 100000 * 6 := by
      calc |Real.sqrt a - Real.sqrt e| * (Real.sqrt a + Real.sqrt e)
          ≤ |Real.sqrt a - Real.sqrt e| * 6 :=
            mul_le_mul_of_nonneg_left hsum6 (abs_nonneg _)
        _ < 1 / 100000 * 6 := mul_lt_mul_of_pos_right hc (by norm_num)
    rw [habs] at hX
    norm_num at hX hgap
    linarith
  · intro heq
    unfold isClose
    rw [heq]
    simp only [sub_self, abs_zero]
    norm_num

/-! ### The shared edge/triangle derivation loops

The four distance-matched generators all contain the same inline double loop
over index pairs (`isClose(vector.dist(pts[i], pts[j]), edgeLen)`), and two of
them the same triple loop over index triples for triangular faces; they are
factored here into `linesFrom` and `trianglesFrom`, applied per generator with
that generator's point list and edge length. -/

open scoped Classical in
/-- The JS edge loop: all pairs `i < j` whose point distance is close to
`edgeLen`, pushed as `{from: i, to: j}` (modelled as the pair `(i, j)`). -/
noncomputable def linesFrom (pts : List (List ℝ)) (edgeLen : ℝ) : List (ℕ × ℕ) :=
  (pairsBelow pts.length).filter (fun e =>
    decide (isClose (vdist (pts.getD e.1 []) (pts.getD e.2 [])) edgeLen))

open scoped Classical in
/-- The JS triangular-face loop: all triples `i < j < k` whose three pairwise
distances are all close to `edgeLen`, pushed as the face `[i, j, k]`. -/
noncomputable def trianglesFrom (pts : List (List ℝ)) (edgeLen : ℝ) : List (List ℕ) :=
  ((triplesBelow pts.length).filter (fun t =>
    decide (isClose (vdist (pts.getD t.1 []) (pts.getD t.2.1 [])) edgeLen) &&
    decide (isClose (vdist (pts.getD t.1 []) (pts.getD t.2.2 [])) edgeLen) &&
    decide (isClose (vdist (pts.getD t.2.1 []) (pts.getD t.2.2 [])) edgeLen))).map
    (fun t => [t.1, t.2.1, t.2.2])

/-- Squared distance between two scaled point vectors, exactly in ℤ[√5]. -/
def sd2 (p q : List Z5) : Z5 :=
  ((p.zip q).map (fun ab => (ab.1 - ab.2) * (ab.1 - ab.2))).sum

/-- Computable mirror of `linesFrom` on the `k`-scaled ℤ[√5] points: an edge
iff the scaled squared distance is exactly the scaled squared edge length. -/
def sLines (spts : List (List Z5)) (sE : Z5) : List (ℕ × ℕ) :=
  (pairsBelow spts.length).filter (fun e =>
    decide (sd2 (spts.getD e.1 []) (spts.getD e.2 []) = sE))

/-- Computable mirror of `trianglesFrom` on the scaled ℤ[√5] points. -/
def sTriangles (spts : List (List Z5)) (sE : Z5) : List (List ℕ) :=
  ((triplesBelow spts.length).filter (fun t =>
    decide (sd2 (spts.getD t.1 []) (spts.getD t.2.1 []) = sE) &&
    decide (sd2 (spts.getD t.1 []) (spts.getD t.2.2 []) = sE) &&
    decide (sd2 (spts.getD t.2.1 []) (spts.getD t.2.2 []) = sE))).map
    (fun t => [t.1, t.2.1, t.2.2])

/-- Per-pair certificate: the scaled squared distance is either exactly the
scaled squared edge length or at least `10⁻²` away from it, and is at most
`16k²` (so that the unscaled distance is at most 4). -/
def pairGood (sd2v sE : Z5) (k : ℤ) : Bool :=
  (decide (sd2v = sE) || farCheck (sd2v - sE) 100) &&
    decide (high4 sd2v ≤ 160000 * (k * k))

/-- All-pairs certificate for one generator. -/
def goodGen (spts : List (List Z5)) (sE : Z5) (k : ℤ) : Bool :=
  (pairsBelow spts.length).all (fun e =>
    pairGood (sd2 (spts.getD e.1 []) (spts.getD e.2 [])) sE k)

theorem dist2_nonneg (p q : List ℝ) : 0 ≤ dist2 p q := by
  unfold dist2
  apply List.sum_nonneg
  intro x hx
  obtain ⟨ab, _, rfl⟩ := List.mem_map.mp hx
  exact mul_self_nonneg _

theorem getD_map_nil {α β : Type} (f : α → β) (l : List (List α)) (i : ℕ) :
    (l.map (List.map f)).getD i [] = (l.getD i []).map f := by
  induction l generalizing i with
  | nil => simp
  | cons a l ih =>
    cases i with
    | zero => simp
    | succ i => simpa using ih i

theorem dist2_scaled (sp sq : List Z5) (k : ℝ) (hk : k ≠ 0) :
    dist2 (sp.map (fun z => rv z / k)) (sq.map (fun z => rv z / k)) =
      rv (sd2 sp sq) / (k * k) := by
  induction sp generalizing sq with
  | nil => simp [dist2, sd2, rv_zero]
  | cons a l ih =>
    cases sq with
    | nil => simp [dist2, sd2, rv_zero]
    | cons b m =>
      have hl := ih m
      unfold dist2 sd2 at hl ⊢
      simp only [List.map_cons, List.zip_cons_cons, List.sum_cons] at hl ⊢
      rw [hl, rv_add, rv_mul, rv_sub]
      field_simp

/-- The per-pair conversion: on the realized scaled points, the JS `isClose`
test of the distance against the edge length holds iff the scaled squared
distance equals the scaled squared edge length exactly. -/
theorem isClose_vdist_iff (sp sq : List Z5) (sE : Z5) (k : ℕ)
    (hk1 : 1 ≤ k) (hk4 : k ≤ 4)
    (he0 : 0 ≤ rv sE) (he4 : rv sE ≤ 4 * (k : ℝ) ^ 2)
    (hpair : pairGood (sd2 sp sq) sE k = true) :
    (isClose (vdist ((sp.map (fun z => rv z / (k : ℝ)))) ((sq.map (fun z => rv z / (k : ℝ)))))
        (Real.sqrt (rv sE) / k) ↔ sd2 sp sq = sE) := by
  have hkR : (0 : ℝ) < (k : ℝ) := by exact_mod_cast hk1
  have hkne : (k : ℝ) ≠ 0 := ne_of_gt hkR
  have hk2 : (0 : ℝ) < (k : ℝ) * k := by positivity
  have hd2 := dist2_scaled sp sq k hkne
  have ha0 : 0 ≤ rv (sd2 sp sq) := by
    have h0 := dist2_nonneg (sp.map (fun z => rv z / (k : ℝ))) (sq.map (fun z => rv z / (k : ℝ)))
    rw [hd2] at h0
    have h1 := mul_nonneg h0 hk2.le
    rwa [div_mul_cancel₀ _ hk2.ne'] at h1
  unfold pairGood at hpair
  rcases Bool.and_eq_true_iff.mp hpair with ⟨hfar, hbound⟩
  have hbound' : (high4 (sd2 sp sq) : ℝ) ≤ 160000 * (k * k) := by
    exact_mod_cast of_decide_eq_true hbound
  have ha16 : rv (sd2 sp sq) ≤ 16 * ((k : ℝ) * k) := by
    have h1 := le_high4 (sd2 sp sq)
    nlinarith
  have hstep : vdist (sp.map (fun z => rv z / (k : ℝ))) (sq.map (fun z => rv z / (k : ℝ)))
      = Real.sqrt (rv (sd2 sp sq) / ((k : ℝ) * k)) := by
    unfold vdist
    rw [hd2]
  rw [hstep]
  have hE : Real.sqrt (rv sE) / (k : ℝ) = Real.sqrt (rv sE / ((k : ℝ) * k)) := by
    rw [Real.sqrt_div he0]
    congr 1
    rw [show (k : ℝ) * k = (k : ℝ) ^ 2 by ring, Real.sqrt_sq hkR.le]
  rw [hE]
  have hiff := isClose_sqrt_iff (a := rv (sd2 sp sq) / ((k : ℝ) * k))
    (e := rv sE / ((k : ℝ) * k))
    (by positivity)
    (by positivity)
    (by rw [div_le_iff₀ hk2]; nlinarith)
    (by rw [div_le_iff₀ hk2]; nlinarith)
    ?_
  · rw [hiff]
    constructor
    · intro hdiv
      apply rv_injective
      field_simp at hdiv
      exact hdiv
    · intro hh
      rw [hh]
  · rcases Bool.or_eq_true_iff.mp hfar with heq | hfar'
    · left
      rw [of_decide_eq_true heq]
    · right
      have h100 := farCheck_sound hfar'
      rw [rv_sub] at h100
      have habs : |rv (sd2 sp sq) / ((k : ℝ) * k) - rv sE / ((k : ℝ) * k)|
          = |rv (sd2 sp sq) - rv sE| / ((k : ℝ) * k) := by
        rw [div_sub_div_same, abs_div, abs_of_pos hk2]
      rw [habs, le_div_iff₀ hk2]
      have hksq : (k : ℝ) * k ≤ 16 := by
        have h4 : (k : ℝ) ≤ 4 := by exact_mod_cast hk4
        nlinarith
      push_cast at h100
      linarith

open scoped Classical in
theorem decide_isClose_eq (spts : List (List Z5)) (sE : Z5) (k : ℕ)
    (hk1 : 1 ≤ k) (hk4 : k ≤ 4) (he0 : 0 ≤ rv sE) (he4 : rv sE ≤ 4 * (k : ℝ) ^ 2)
    (hgood : goodGen spts sE k = true) {i j : ℕ} (hij : i < j) (hjn : j < spts.length) :
    decide (isClose (vdist ((spts.map (List.map (fun z => rv z / (k : ℝ)))).getD i [])
        ((spts.map (List.map (fun z => rv z / (k : ℝ)))).getD j []))
        (Real.sqrt (rv sE) / k))
      = decide (sd2 (spts.getD i []) (spts.getD j []) = sE) := by
  rw [getD_map_nil, getD_map_nil, decide_eq_decide]
  apply isClose_vdist_iff _ _ _ _ hk1 hk4 he0 he4
  have hmem : (i, j) ∈ pairsBelow spts.length := mem_pairsBelow.mpr ⟨hij, hjn⟩
  exact List.all_eq_true.mp hgood (i, j) hmem

theorem linesFrom_scaled (spts : List (List Z5)) (sE : Z5) (k : ℕ)
    (hk1 : 1 ≤ k) (hk4 : k ≤ 4) (he0 : 0 ≤ rv sE) (he4 : rv sE ≤ 4 * (k : ℝ) ^ 2)
    (hgood : goodGen spts sE k = true) :
    linesFrom (spts.map (List.map (fun z => rv z / (k : ℝ)))) (Real.sqrt (rv sE) / k) =
      sLines spts sE := by
  unfold linesFrom sLines
  rw [List.length_map]
  apply List.filter_congr
  intro e he
  obtain ⟨i, j⟩ := e
  obtain ⟨hij, hjn⟩ := mem_pairsBelow.mp he
  exact decide_isClose_eq spts sE k hk1 hk4 he0 he4 hgood hij hjn

theorem trianglesFrom_scaled (spts : List (List Z5)) (sE : Z5) (k : ℕ)
    (hk1 : 1 ≤ k) (hk4 : k ≤ 4) (he0 : 0 ≤ rv sE) (he4 : rv sE ≤ 4 * (k : ℝ) ^ 2)
    (hgood : goodGen spts sE k = true) :
    trianglesFrom (spts.map (List.map (fun z => rv z / (k : ℝ)))) (Real.sqrt (rv sE) / k) =
      sTriangles spts sE := by
  unfold trianglesFrom sTriangles
  rw [List.length_map]
  congr 1
  apply List.filter_congr
  intro t ht
  obtain ⟨i, j, l⟩ := t
  obtain ⟨hij, hjl, hln⟩ := mem_triplesBelow.mp ht
  rw [decide_isClose_eq spts sE k hk1 hk4 he0 he4 hgood hij (hjl.trans hln),
    decide_isClose_eq spts sE k hk1 hk4 he0 he4 hgood (hij.trans hjl) hln,
    decide_isClose_eq spts sE k hk1 hk4 he0 he4 hgood hjl hln]

/-! ### φ arithmetic helpers -/

theorem sqrt5_sq : Real.sqrt 5 * Real.sqrt 5 = 5 := Real.mul_self_sqrt (by norm_num)

theorem phi_pos : 0 < phi := by
  unfold phi
  have := Real.sqrt_nonneg (5:ℝ)
  linarith

theorem phi_ne_zero : phi ≠ 0 := ne_of_gt phi_pos

theorem one_div_phi : (1 : ℝ) / phi = (-1 + Real.sqrt 5) / 2 := by
  rw [div_eq_iff phi_ne_zero]
  unfold phi
  linear_combination (-1/4 : ℝ) * sqrt5_sq

theorem neg_one_div_phi : (-1 : ℝ) / phi = (1 - Real.sqrt 5) / 2 := by
  rw [div_eq_iff phi_ne_zero]
  unfold phi
  linear_combination (1/4 : ℝ) * sqrt5_sq

/-! ### The shape generators -/

/-- The `[pts, lines, faces]` triple returned by each generator. -/
structure Shape where
  pts : List (List ℝ)
  lines : List (ℕ × ℕ)
  faces : List (List ℕ)

/-- The JS sign loop `for (let s = -1; s <= 1; s += 2)` runs over `[-1, 1]`. -/
def sgns : List ℤ := [-1, 1]

/-- A general `s / phi` rewrite: `1/φ = (√5 - 1)/2`. -/
theorem div_phi (s : ℝ) : s / phi = s * (Real.sqrt 5 - 1) / 2 := by
  rw [div_eq_iff phi_ne_zero]
  unfold phi
  linear_combination (-s / 4) * sqrt5_sq

/-- Points of `getDodecahedronPtsLinesFaces` (util.js, lines 152-166): the
eight cube corners `(±1, ±1, ±1)` in sign-loop order, followed by the twelve
points `(0, ±φ, ±1/φ)`, `(±1/φ, 0, ±φ)`, `(±φ, ±1/φ, 0)`. -/
noncomputable def dodecaPts : List (List ℝ) :=
  (sgns.flatMap fun s1 => sgns.flatMap fun s2 => sgns.map fun s3 =>
    [(s1 : ℝ), (s2 : ℝ), (s3 : ℝ)]) ++
  (sgns.flatMap fun s1 => sgns.flatMap fun s2 =>
    [[0, (s1 : ℝ) * phi, (s2 : ℝ) / phi],
     [(s1 : ℝ) / phi, 0, (s2 : ℝ) * phi],
     [(s1 : ℝ) * phi, (s2 : ℝ) / phi, 0]])

/-- The dodecahedron points scaled by `k = 2`, exactly in ℤ[√5]
(`2φ = 1 + √5`, `2/φ = -1 + √5`). -/
def sDodecaPts : List (List Z5) :=
  (sgns.flatMap fun s1 => sgns.flatMap fun s2 => sgns.map fun s3 =>
    [(⟨2 * s1, 0⟩ : Z5), ⟨2 * s2, 0⟩, ⟨2 * s3, 0⟩]) ++
  (sgns.flatMap fun s1 => sgns.flatMap fun s2 =>
    [[(⟨0, 0⟩ : Z5), ⟨s1, s1⟩, ⟨-s2, s2⟩],
     [⟨-s1, s1⟩, ⟨0, 0⟩, ⟨s2, s2⟩],
     [⟨s1, s1⟩, ⟨-s2, s2⟩, ⟨0, 0⟩]])

theorem dodecaPts_scaled :
    dodecaPts = sDodecaPts.map (List.map (fun z => rv z / (((2 : ℕ) : ℝ)))) := by
  have hphi2 : ((0:ℝ) < (1 + Real.sqrt 5) / 2) := by positivity
  have hphi1 : ((0:ℝ) < 1 + Real.sqrt 5) := by positivity
  have g1 : -(((1:ℝ) + Real.sqrt 5) / 2) = (-1 + -Real.sqrt 5) / 2 := by ring
  have g2 : (-1 : ℝ) / ((1 + Real.sqrt 5) / 2) = (1 + -Real.sqrt 5) / 2 := by
    rw [div_eq_iff hphi2.ne']
    linear_combination (1/4 : ℝ) * sqrt5_sq
  have g3 : (2 : ℝ) / (1 + Real.sqrt 5) = (-1 + Real.sqrt 5) / 2 := by
    rw [div_eq_iff hphi1.ne']
    linear_combination (-1/2 : ℝ) * sqrt5_sq
  unfold dodecaPts sDodecaPts sgns
  norm_num [rv_mk, div_phi, phi]
  norm_num [mul_comm, g1, g2, g3]

/-- Edge list of the dodecahedron: the JS loop with `edgeLen = 2 / phi`. -/
noncomputable def dodecaLines : List (ℕ × ℕ) := linesFrom dodecaPts (2 / phi)

open scoped Classical in
/-- Faces of the dodecahedron (util.js, lines 178-194): for each
`coord1 ∈ {0,1,2}` (with `coord2 = (coord1+1) % 3`) and signs `s1, s2`, the
face holds every index `i` with
`isClose(pt[coord1] + s1*phi*pt[coord2], s2*phi*phi)`. -/
noncomputable def dodecaFaces : List (List ℕ) :=
  ([0, 1, 2] : List ℕ).flatMap fun coord1 =>
    sgns.flatMap fun s1 => sgns.map fun s2 =>
      (List.range dodecaPts.length).filter fun i =>
        decide (isClose ((dodecaPts.getD i []).getD coord1 0 +
          (s1 : ℝ) * phi * ((dodecaPts.getD i []).getD ((coord1 + 1) % 3) 0))
          ((s2 : ℝ) * phi * phi))

/-- `getDodecahedronPtsLinesFaces()` from util.js. -/
noncomputable def getDodecahedronPtsLinesFaces : Shape :=
  ⟨dodecaPts, dodecaLines, dodecaFaces⟩

/-- The squared edge length `(2/φ)² = 6 - 2√5`, scaled by `k² = 4`, is
`24 - 8√5 = rv ⟨24, -8⟩`; as reals, `2/φ = √(rv ⟨24,-8⟩)/2`. -/
theorem dodeca_edgeLen : 2 / phi = Real.sqrt (rv ⟨24, -8⟩) / ((2 : ℕ) : ℝ) := by
  have h1 : rv ⟨24, -8⟩ = (2 * Real.sqrt 5 - 2) ^ 2 := by
    rw [rv_mk]
    push_cast
    linear_combination (-4 : ℝ) * sqrt5_sq
  rw [h1, Real.sqrt_sq (by nlinarith [sqrt5_lb] : (0:ℝ) ≤ 2 * Real.sqrt 5 - 2)]
  rw [show (2:ℝ)/phi = 2 * (1/phi) by ring, one_div_phi]
  push_cast
  ring

theorem dodeca_sE_nonneg : 0 ≤ rv ⟨24, -8⟩ := by
  rw [rv_mk]
  push_cast
  nlinarith [sqrt5_ub]

theorem dodeca_sE_le : rv ⟨24, -8⟩ ≤ 4 * (((2:ℕ)) : ℝ) ^ 2 := by
  rw [rv_mk]
  push_cast
  nlinarith [sqrt5_lb]

theorem dodecaLines_eq : dodecaLines = sLines sDodecaPts ⟨24, -8⟩ := by
  unfold dodecaLines
  rw [dodecaPts_scaled, dodeca_edgeLen]
  exact linesFrom_scaled sDodecaPts ⟨24, -8⟩ 2 (by norm_num) (by norm_num)
    dodeca_sE_nonneg dodeca_sE_le (by decide)

/-- Points of `getIcosahedronPtsLinesFaces` (util.js, lines 212-222): for each
cyclic axis pair `(c1, c2 = (c1+1) % 3)` and signs `s1, s2`, the point with
`pt[c1] = s1`, `pt[c2] = s2·φ` and third coordinate 0. -/
noncomputable def icosaPts : List (List ℝ) :=
  ([0, 1, 2] : List ℕ).flatMap fun c1 =>
    sgns.flatMap fun s1 => sgns.map fun s2 =>
      (([0, 0, 0] : List ℝ).set c1 (s1 : ℝ)).set ((c1 + 1) % 3) ((s2 : ℝ) * phi)

/-- The icosahedron points scaled by `k = 2`, exactly in ℤ[√5]. -/
def sIcosaPts : List (List Z5) :=
  ([0, 1, 2] : List ℕ).flatMap fun c1 =>
    sgns.flatMap fun s1 => sgns.map fun s2 =>
      (([0, 0, 0] : List Z5).set c1 ⟨2 * s1, 0⟩).set ((c1 + 1) % 3) ⟨s2, s2⟩

theorem icosaPts_scaled :
    icosaPts = sIcosaPts.map (List.map (fun z => rv z / (((2 : ℕ) : ℝ)))) := by
  have g1 : -(((1:ℝ) + Real.sqrt 5) / 2) = (-1 + -Real.sqrt 5) / 2 := by ring
  unfold icosaPts sIcosaPts sgns
  norm_num [rv_mk, rv_zero, phi]
  norm_num [mul_comm, g1, rv_zero]

/-- Edge list of the icosahedron: the JS loop with `edgeLen = 2`. -/
noncomputable def icosaLines : List (ℕ × ℕ) := linesFrom icosaPts 2

/-- Triangular faces of the icosahedron: the JS triple loop with
`edgeLen = 2`. -/
noncomputable def icosaFaces : List (List ℕ) := trianglesFrom icosaPts 2

/-- `getIcosahedronPtsLinesFaces()` from util.js. -/
noncomputable def getIcosahedronPtsLinesFaces : Shape :=
  ⟨icosaPts, icosaLines, icosaFaces⟩

theorem icosa_edgeLen : (2 : ℝ) = Real.sqrt (rv ⟨16, 0⟩) / ((2 : ℕ) : ℝ) := by
  rw [rv_mk]
  push_cast
  rw [show (16:ℝ) + 0 * Real.sqrt 5 = 4 ^ 2 by norm_num,
    Real.sqrt_sq (by norm_num : (0:ℝ) ≤ 4)]
  norm_num

theorem icosa_sE_nonneg : 0 ≤ rv ⟨16, 0⟩ := by
  rw [rv_mk]
  norm_num

theorem icosa_sE_le : rv ⟨16, 0⟩ ≤ 4 * (((2:ℕ)) : ℝ) ^ 2 := by
  rw [rv_mk]
  norm_num

theorem icosaLines_eq : icosaLines = sLines sIcosaPts ⟨16, 0⟩ := by
  unfold icosaLines
  rw [icosaPts_scaled, icosa_edgeLen]
  exact linesFrom_scaled sIcosaPts ⟨16, 0⟩ 2 (by norm_num) (by norm_num)
    icosa_sE_nonneg icosa_sE_le (by decide)

theorem icosaFaces_eq : icosaFaces = sTriangles sIcosaPts ⟨16, 0⟩ := by
  unfold icosaFaces
  rw [icosaPts_scaled, icosa_edgeLen]
  exact trianglesFrom_scaled sIcosaPts ⟨16, 0⟩ 2 (by norm_num) (by norm_num)
    icosa_sE_nonneg icosa_sE_le (by decide)

/-- Points of `getCuboctahedronPtsLinesFaces` (util.js, lines 282-292): for
each cyclic axis pair and signs, the point with `pt[c1] = s1`, `pt[c2] = s2`,
third coordinate 0. -/
noncomputable def cuboctaPts : List (List ℝ) :=
  ([0, 1, 2] : List ℕ).flatMap fun c1 =>
    sgns.flatMap fun s1 => sgns.map fun s2 =>
      (([0, 0, 0] : List ℝ).set c1 (s1 : ℝ)).set ((c1 + 1) % 3) (s2 : ℝ)

/-- The cuboctahedron points are already integral: scale `k = 1`. -/
def sCuboctaPts : List (List Z5) :=
  ([0, 1, 2] : List ℕ).flatMap fun c1 =>
    sgns.flatMap fun s1 => sgns.map fun s2 =>
      (([0, 0, 0] : List Z5).set c1 ⟨s1, 0⟩).set ((c1 + 1) % 3) ⟨s2, 0⟩

theorem cuboctaPts_scaled :
    cuboctaPts = sCuboctaPts.map (List.map (fun z => rv z / (((1 : ℕ) : ℝ)))) := by
  unfold cuboctaPts sCuboctaPts sgns
  norm_num [rv_mk, rv_zero]

/-- Edge list of the cuboctahedron: the JS loop with `edgeLen = Math.sqrt(2)`. -/
noncomputable def cuboctaLines : List (ℕ × ℕ) := linesFrom cuboctaPts (Real.sqrt 2)

open scoped Classical in
/-- Square faces of the cuboctahedron (util.js, lines 306-314): for each axis
`c` and sign `s`, all indices `i` with `pts[i][c] == s`. -/
noncomputable def cuboctaSquares : List (List ℕ) :=
  ([0, 1, 2] : List ℕ).flatMap fun c =>
    sgns.map fun s =>
      (List.range cuboctaPts.length).filter fun i =>
        decide ((cuboctaPts.getD i []).getD c 0 = (s : ℝ))

open scoped Classical in
/-- Triangular faces of the cuboctahedron (util.js, lines 316-331): for each
sign triple `s`, all indices `i` whose point matches `s` in exactly two
coordinates. -/
noncomputable def cuboctaTriangles : List (List ℕ) :=
  sgns.flatMap fun s1 => sgns.flatMap fun s2 => sgns.map fun s3 =>
    (List.range cuboctaPts.length).filter fun i =>
      decide ((((List.range 3).filter fun j =>
        decide ((cuboctaPts.getD i []).getD j 0 =
          (([(s1 : ℝ), (s2 : ℝ), (s3 : ℝ)]).getD j 0))).length) = 2)

/-- `getCuboctahedronPtsLinesFaces()` from util.js; squares precede
triangles in the faces list. -/
noncomputable def getCuboctahedronPtsLinesFaces : Shape :=
  ⟨cuboctaPts, cuboctaLines, cuboctaSquares ++ cuboctaTriangles⟩

theorem cubocta_edgeLen : Real.sqrt 2 = Real.sqrt (rv ⟨2, 0⟩) / ((1 : ℕ) : ℝ) := by
  rw [rv_mk]
  push_cast
  norm_num

theorem cubocta_sE_nonneg : 0 ≤ rv ⟨2, 0⟩ := by
  rw [rv_mk]
  norm_num

theorem cubocta_sE_le : rv ⟨2, 0⟩ ≤ 4 * (((1:ℕ)) : ℝ) ^ 2 := by
  rw [rv_mk]
  norm_num

theorem cuboctaLines_eq : cuboctaLines = sLines sCuboctaPts ⟨2, 0⟩ := by
  unfold cuboctaLines
  rw [cuboctaPts_scaled, cubocta_edgeLen]
  exact linesFrom_scaled sCuboctaPts ⟨2, 0⟩ 1 (by norm_num) (by norm_num)
    cubocta_sE_nonneg cubocta_sE_le (by decide)

/-- Points of `getIcosidodecahedronPtsLinesFaces` (util.js, lines 348-372):
the six points `(0,0,±φ)` and shifts, followed for each cyclic axis triple and
sign triple by the point `(±1/2, ±φ/2, ±φ²/2)` (shifted). -/
noncomputable def icosidodecaPts : List (List ℝ) :=
  (([0, 1, 2] : List ℕ).flatMap fun c =>
    sgns.map fun s => ([0, 0, 0] : List ℝ).set c ((s : ℝ) * phi)) ++
  (([0, 1, 2] : List ℕ).flatMap fun c1 =>
    sgns.flatMap fun s1 => sgns.flatMap fun s2 => sgns.map fun s3 =>
      ((([0, 0, 0] : List ℝ).set c1 ((s1 : ℝ) / 2)).set ((c1 + 1) % 3)
        ((s2 : ℝ) * phi / 2)).set ((c1 + 2) % 3) ((s3 : ℝ) * phi * phi / 2))

/-- The icosidodecahedron points scaled by `k = 4`, exactly in ℤ[√5]
(`4φ = 2 + 2√5`, `4·(1/2) = 2`, `4·(φ/2) = 1 + √5`, `4·(φ²/2) = 3 + √5`). -/
def sIcosidodecaPts : List (List Z5) :=
  (([0, 1, 2] : List ℕ).flatMap fun c =>
    sgns.map fun s => ([0, 0, 0] : List Z5).set c ⟨2 * s, 2 * s⟩) ++
  (([0, 1, 2] : List ℕ).flatMap fun c1 =>
    sgns.flatMap fun s1 => sgns.flatMap fun s2 => sgns.map fun s3 =>
      ((([0, 0, 0] : List Z5).set c1 ⟨2 * s1, 0⟩).set ((c1 + 1) % 3)
        ⟨s2, s2⟩).set ((c1 + 2) % 3) ⟨3 * s3, s3⟩)

theorem icosidodecaPts_scaled :
    icosidodecaPts = sIcosidodecaPts.map (List.map (fun z => rv z / (((4 : ℕ) : ℝ)))) := by
  have g1 : -(((1:ℝ) + Real.sqrt 5) / 2) = (-1 + -Real.sqrt 5) / 2 := by ring
  unfold icosidodecaPts sIcosidodecaPts sgns
  norm_num [rv_mk, rv_zero, phi]
  norm_num [mul_comm, g1, rv_zero]
  repeat' apply And.intro
  all_goals first
    | trivial
    | ring1
    | linear_combination (1/8 : ℝ) * sqrt5_sq
    | linear_combination (-1/8 : ℝ) * sqrt5_sq

/-- Edge list of the icosidodecahedron: the JS loop with `edgeLen = 1`. -/
noncomputable def icosidodecaLines : List (ℕ × ℕ) := linesFrom icosidodecaPts 1

/-- Triangular faces of the icosidodecahedron: the JS triple loop with
`edgeLen = 1`. -/
noncomputable def icosidodecaTriangles : List (List ℕ) := trianglesFrom icosidodecaPts 1

open scoped Classical in
/-- Pentagonal faces of the icosidodecahedron (util.js, lines 415-438): for
each cyclic axis pair and signs, `findPtsInPlane(v, φ²/2)` with
`v[c1] = s1·φ/2`, `v[c2] = s2/2`: all indices `i` with
`isClose(⟨v, pts[i]⟩, φ²/2)`. -/
noncomputable def icosidodecaPentagons : List (List ℕ) :=
  ([0, 1, 2] : List ℕ).flatMap fun c1 =>
    sgns.flatMap fun s1 => sgns.map fun s2 =>
      (List.range icosidodecaPts.length).filter fun i =>
        decide (isClose (vdot ((([0, 0, 0] : List ℝ).set c1 ((s1 : ℝ) * phi / 2)).set
          ((c1 + 1) % 3) ((s2 : ℝ) / 2)) (icosidodecaPts.getD i []))
          (phi * phi / 2))

/-- `getIcosidodecahedronPtsLinesFaces()` from util.js; triangles precede
pentagons in the faces list. -/
noncomputable def getIcosidodecahedronPtsLinesFaces : Shape :=
  ⟨icosidodecaPts, icosidodecaLines, icosidodecaTriangles ++ icosidodecaPentagons⟩

theorem icosidodeca_edgeLen : (1 : ℝ) = Real.sqrt (rv ⟨16, 0⟩) / ((4 : ℕ) : ℝ) := by
  rw [rv_mk]
  push_cast
  rw [show (16:ℝ) + 0 * Real.sqrt 5 = 4 ^ 2 by norm_num,
    Real.sqrt_sq (by norm_num : (0:ℝ) ≤ 4)]
  norm_num

theorem icosidodeca_sE_le : rv ⟨16, 0⟩ ≤ 4 * (((4:ℕ)) : ℝ) ^ 2 := by
  rw [rv_mk]
  norm_num

set_option maxRecDepth 40000 in
theorem icosidodecaLines_eq : icosidodecaLines = sLines sIcosidodecaPts ⟨16, 0⟩ := by
  unfold icosidodecaLines
  rw [icosidodecaPts_scaled, icosidodeca_edgeLen]
  exact linesFrom_scaled sIcosidodecaPts ⟨16, 0⟩ 4 (by norm_num) (by norm_num)
    icosa_sE_nonneg icosidodeca_sE_le (by decide)

set_option maxRecDepth 100000 in
theorem icosidodecaTriangles_eq :
    icosidodecaTriangles = sTriangles sIcosidodecaPts ⟨16, 0⟩ := by
  unfold icosidodecaTriangles
  rw [icosidodecaPts_scaled, icosidodeca_edgeLen]
  exact trianglesFrom_scaled sIcosidodecaPts ⟨16, 0⟩ 4 (by norm_num) (by norm_num)
    icosa_sE_nonneg icosidodeca_sE_le (by decide)

/-! ### The cube and tetrahedron generators -/

/-- Cube shape: the cube generator manipulates only small integers, so it is
embedded computably over `ℤ`. -/
structure ShapeZ where
  pts : List (List ℤ)
  lines : List (ℕ × ℕ)
  faces : List (List ℕ)

/-- `push(elt, prop, newItem)` from util.js, on an association-list model of a
JS object: append `v` to the key's array, creating it if absent.  JS objects
preserve insertion order for the string keys used here, which the association
list models; the key `` `${i}:${pt[i]}` `` is modelled as the pair
`(i, pt[i])`, in bijection with the six strings that occur. -/
def pushAL (m : List ((ℕ × ℤ) × List ℕ)) (key : ℕ × ℤ) (v : ℕ) :
    List ((ℕ × ℤ) × List ℕ) :=
  if m.any (fun e => decide (e.1 = key)) then
    m.map (fun e => if e.1 = key then (e.1, e.2 ++ [v]) else e)
  else m ++ [(key, [v])]

/-- Loop state of the cube construction: the running index, the two pending
stacks, and the accumulated points, lines and face map. -/
structure CubeAcc where
  idx : ℕ
  xStack : List ℕ
  yStack : List ℕ
  pts : List (List ℤ)
  lines : List (ℕ × ℕ)
  faceMap : List ((ℕ × ℤ) × List ℕ)

/-- One iteration of the cube triple loop (util.js, lines 74-89).  `shift()`
is modelled by head (`getD 0`, the stacks are nonempty whenever shifted: each
`x === 1` iteration is preceded by the matching `x === -1` push) plus
`drop 1`. -/
def cubeStep (acc : CubeAcc) (c : ℤ × ℤ × ℤ) : CubeAcc :=
  let x := c.1
  let y := c.2.1
  let z := c.2.2
  let xS0 := if x = -1 then acc.xStack ++ [acc.idx] else acc.xStack
  let yS0 := if y = -1 then acc.yStack ++ [acc.idx] else acc.yStack
  let pt := [x, y, z]
  let pts := acc.pts ++ [pt]
  let fm := pushAL (pushAL (pushAL acc.faceMap (0, x) acc.idx) (1, y) acc.idx)
    (2, z) acc.idx
  let lines1 := if x = 1 then acc.lines ++ [(xS0.getD 0 0, acc.idx)] else acc.lines
  let xS1 := if x = 1 then xS0.drop 1 else xS0
  let lines2 := if y = 1 then lines1 ++ [(yS0.getD 0 0, acc.idx)] else lines1
  let yS1 := if y = 1 then yS0.drop 1 else yS0
  let lines3 := if z = 1 then lines2 ++ [(acc.idx - 1, acc.idx)] else lines2
  ⟨acc.idx + 1, xS1, yS1, pts, lines3, fm⟩

/-- The 8 sign combinations `(x, y, z)` in the nesting order of the JS
loops `for x, for y, for z` over `{-1, 1}`. -/
def cubeCombos : List (ℤ × ℤ × ℤ) :=
  sgns.flatMap fun x => sgns.flatMap fun y => sgns.map fun z => (x, y, z)

/-- `getCubePtsLinesFaces()` from util.js (lines 66-94): run the triple loop,
then `faces = Object.values(faceMap)`. -/
def getCubePtsLinesFaces : ShapeZ :=
  let acc := cubeCombos.foldl cubeStep ⟨0, [], [], [], [], []⟩
  ⟨acc.pts, acc.lines, acc.faceMap.map (fun e => e.2)⟩

/-- `getTetrahedronPtsLinesFaces()` from util.js (lines 97-131): the four
points `(a, 0, -1/√2)`, `(0, a, 1/√2)` for `a = ±1`; the complete edge list
on the 4 indices (the JS loop `i < 3, j = i+1..3` is exactly `pairsBelow 4`);
and the four faces, face `i` listing every index `j ≠ i` in order. -/
noncomputable def getTetrahedronPtsLinesFaces : Shape :=
  ⟨sgns.flatMap fun a =>
      [[(a : ℝ), 0, -(1 / Real.sqrt 2)], [0, (a : ℝ), 1 / Real.sqrt 2]],
   pairsBelow 4,
   (List.range 4).map fun i => (List.range 4).filter fun j => decide (j ≠ i)⟩

/-! ### JS number model for the projection transforms

The projection claims concern silent propagation of non-finite values, so the
transforms are embedded over a model of JS numbers: `some x` is a finite
double (realized as the exact real `x`), `none` is a non-finite value (NaN or
±Infinity).  Sums, differences, products, negation, `cos`/`sin` involving a
non-finite operand are non-finite (as in IEEE); a quotient is non-finite when
its denominator is 0 (JS: ±Infinity or NaN) or either operand is non-finite
(a finite number divided by ±Infinity, which JS maps to 0, never occurs in
the modelled code: every divisor there is obtained from finite inputs);
`sqrt` of a negative number is NaN. -/

/-- A JS number: finite (exact real) or non-finite. -/
abbrev Jv := Option ℝ

noncomputable def jadd : Jv → Jv → Jv
  | some a, some b => some (a + b)
  | _, _ => none

noncomputable def jsub : Jv → Jv → Jv
  | some a, some b => some (a - b)
  | _, _ => none

noncomputable def jmul : Jv → Jv → Jv
  | some a, some b => some (a * b)
  | _, _ => none

noncomputable def jneg : Jv → Jv
  | some a => some (-a)
  | none => none

open scoped Classical in
noncomputable def jdiv : Jv → Jv → Jv
  | some a, some b => if b = 0 then none else some (a / b)
  | _, _ => none

open scoped Classical in
noncomputable def jsqrt : Jv → Jv
  | some a => if 0 ≤ a then some (Real.sqrt a) else none
  | none => none

noncomputable def jcos : Jv → Jv
  | some a => some (Real.cos a)
  | none => none

noncomputable def jsin : Jv → Jv
  | some a => some (Real.sin a)
  | none => none

/-- Summation (used by the spec-modelled `vector.len`). -/
noncomputable def jsum (l : List Jv) : Jv := l.foldl jadd (some 0)

/-- `Math.min(...)` over a spread array: NaN-propagating minimum; with no
arguments JS returns Infinity, a non-finite value. -/
noncomputable def jmins : List Jv → Jv
  | [] => none
  | x :: xs => xs.foldl (fun acc a => match acc, a with
      | some m, some v => some (min m v)
      | _, _ => none) x

/-- `Math.max(...)`, analogously. -/
noncomputable def jmaxs : List Jv → Jv
  | [] => none
  | x :: xs => xs.foldl (fun acc a => match acc, a with
      | some m, some v => some (max m v)
      | _, _ => none) x

/-- A JS point array together with its optional `label` property (an array
has no `label` until one is assigned). -/
structure JPoint where
  coords : List Jv
  label : Option String

/-- `explodeNDPoints(pts, labels, rMin, rMax)` (util.js, lines 494-513) as a
state transformer: the first component is the final state of the input array
(the loop assigns `pt.label = labels[i]` onto each input point — a mutation),
the second is the returned `newP`.  The inner `findA` of the JS source
references variables not in scope and is never evaluated; it is omitted.
Out-of-range indexing (`pt[0]` of an empty array) yields `undefined`, which
behaves as a non-finite value in all the operations used here. -/
noncomputable def explodeNDPoints (pts : List JPoint) (labels : List String)
    (rMin rMax : Jv) : List JPoint × List JPoint :=
  let xMin := jmins (pts.map fun p => p.coords.getD 0 none)
  let xMax := jmaxs (pts.map fun p => p.coords.getD 0 none)
  let findR := fun x =>
    jadd rMin (jdiv (jmul (jsub rMax rMin) (jsub x xMin)) (jsub xMax xMin))
  (pts.mapIdx fun i pt => { pt with label := labels.get? i },
   pts.mapIdx fun i pt =>
     let q := pt.coords.drop 1
     let len := jsqrt (jsum (q.map fun x => jmul x x))
     let r := findR (pt.coords.getD 0 none)
     { coords := q.map fun x => jmul (jdiv x len) r, label := labels.get? i })

/-- `explode3DPoints(pts, labels, rMin, rMax, aMin, aMax, doKeepCoords)`
(util.js, lines 452-492) as a state transformer (first component: the input
array after the per-point `pt.label = labels[i]` assignments; second: the
returned list).  The JS argument shuffle `if (aMax === undefined)
doKeepCoords = aMin` lets callers pass `doKeepCoords` in `aMin`'s position;
the two calling shapes are modelled by the separate `angles` and
`doKeepCoords` parameters, and the rotation is applied exactly when both
angle bounds are supplied.  Modelled from the spec: `matrix.js` is missing
from the snapshot; `matrix.rotateXY a` is the standard rotation of the plane
by the angle `a`, so `transpose(mult(rotateXY(a), transpose([p])))[0]` is
`[p₀·cos a - p₁·sin a, p₀·sin a + p₁·cos a]`. -/
noncomputable def explode3DPoints (pts : List JPoint) (labels : List String)
    (rMin rMax : Jv) (angles : Option (Jv × Jv)) (doKeepCoords : Bool) :
    List JPoint × List JPoint :=
  let xMin := jmins (pts.map fun p => p.coords.getD 0 none)
  let xMax := jmaxs (pts.map fun p => p.coords.getD 0 none)
  let findR := fun x =>
    jadd rMin (jdiv (jmul (jsub rMax rMin) (jsub x xMin)) (jsub xMax xMin))
  (pts.mapIdx fun i pt => { pt with label := labels.get? i },
   pts.mapIdx fun i pt =>
     let len := jsqrt (jadd
       (jmul (pt.coords.getD 1 none) (pt.coords.getD 1 none))
       (jmul (pt.coords.getD 2 none) (pt.coords.getD 2 none)))
     let r := findR (pt.coords.getD 0 none)
     let newPt :=
       if doKeepCoords then
         [jmul (jdiv (pt.coords.getD 1 none) len) r,
          jmul (jdiv (pt.coords.getD 2 none) len) r]
       else
         [jmul (jdiv (jneg (pt.coords.getD 2 none)) len) r,
          jmul (jdiv (pt.coords.getD 1 none) len) r]
     let newPt2 :=
       match angles with
       | some (aMin, aMax) =>
         let a := jadd aMin (jdiv (jmul (jsub aMax aMin)
           (jsub (pt.coords.getD 0 none) xMin)) (jsub xMax xMin))
         [jsub (jmul (jcos a) (newPt.getD 0 none)) (jmul (jsin a) (newPt.getD 1 none)),
          jadd (jmul (jsin a) (newPt.getD 0 none)) (jmul (jcos a) (newPt.getD 1 none))]
       | none => newPt
     { coords := newPt2, label := labels.get? i })

/-- The translated depth value `z = pt[0] - zMin + minZVal` of point `i`
(util.js, line 525). -/
noncomputable def perspDepth (pts : List JPoint) (m : Jv) (i : ℕ) : Jv :=
  jadd (jsub ((pts.getD i ⟨[], none⟩).coords.getD 0 none)
    (jmins (pts.map fun p => p.coords.getD 0 none))) m

/-- `perspectiveProjectPoints(pts, labels, minZVal)` (util.js, lines 518-531)
as a state transformer (the function reads but never writes its input, so the
first component is `pts` itself).  `minZVal` defaults to 2 when the argument
is omitted. -/
noncomputable def perspectiveProjectPoints (pts : List JPoint)
    (labels : List String) (minZVal : Option Jv) : List JPoint × List JPoint :=
  let m : Jv := match minZVal with | none => some 2 | some v => v
  (pts,
   pts.mapIdx fun i pt =>
     let z := jadd (jsub (pt.coords.getD 0 none)
       (jmins (pts.map fun p => p.coords.getD 0 none))) m
     { coords := (pt.coords.drop 1).map fun x => jdiv x z,
       label := labels.get? i })

/-! ### Color helpers

The color helpers do only rational arithmetic (`parseInt`, `/255`, `·255`,
`ceil`), so they are embedded computably over `ℚ`. -/

/-- Value of one hex digit as accepted by `parseInt(·, 16)` (either case);
`none` marks a non-digit. -/
def hexDigitVal (c : Char) : Option ℕ :=
  if '0' ≤ c ∧ c ≤ '9' then some (c.toNat - '0'.toNat)
  else if 'a' ≤ c ∧ c ≤ 'f' then some (c.toNat - 'a'.toNat + 10)
  else if 'A' ≤ c ∧ c ≤ 'F' then some (c.toNat - 'F'.toNat + 10)
  else none

/-- `parseInt(s, 16)`: parse the longest valid prefix; `none` models the NaN
result when the first character is not a hex digit (sign/whitespace handling
is irrelevant for the 1-2 character channel substrings that occur). -/
def parseIntHex (s : List Char) : Option ℕ :=
  match s with
  | [] => none
  | c :: _ =>
    match hexDigitVal c with
    | none => none
    | some _ => some ((s.takeWhile (fun c => (hexDigitVal c).isSome)).foldl
        (fun n c => 16 * n + (hexDigitVal c).getD 0) 0)

/-- `getStdColor(colorStr)` (util.js, lines 536-546).  `console.assert` logs
without halting, so there is no failure path; a non-hex channel yields NaN,
modelled as `none`.  `substr(start, len)` is `drop`/`take` on the character
list; a 1-digit channel (`#rgb` form) is doubled before parsing. -/
def getStdColor (colorStr : String) : List (Option ℚ) :=
  let nDigits := if colorStr.length = 7 then 2 else 1
  (List.range 3).map fun i =>
    let channelStr := (colorStr.data.drop (1 + nDigits * i)).take nDigits
    let channelStr := if nDigits = 1 then channelStr ++ channelStr else channelStr
    (parseIntHex channelStr).map (fun n => (n : ℚ) / 255)

/-- `n.toString(16)` for an integer `n` (lowercase digits, `-` prefix for
negative numbers, as in JS). -/
def intToHexStr (n : ℤ) : String :=
  if n < 0 then "-" ++ (Nat.toDigits 16 n.natAbs).asString
  else (Nat.toDigits 16 n.toNat).asString

/-- `padStart(2, '0')`. -/
def padStart2 (s : String) : String :=
  ⟨List.replicate (2 - s.length) '0' ++ s.data⟩

/-- The private `hex` helper (util.js, line 51):
`d => Math.ceil(d * 255).toString(16).padStart(2, '0')`.  `Math.ceil` on a
finite value is the smallest integer greater than or equal to it, which is
`Rat.ceil`. -/
def hex (d : ℚ) : String := padStart2 (intToHexStr (d * 255).ceil)

/-- `getColorStr(c)` (util.js, lines 550-553): `'#' + c.map(hex).join('')`;
when `c` is omitted the shared `ctx.stdColor` slot (passed here explicitly as
`stdColor`) is used instead. -/
def getColorStr (stdColor : List ℚ) (c : Option (List ℚ)) : String :=
  match c with
  | some c => "#" ++ String.join (c.map hex)
  | none => "#" ++ String.join (stdColor.map hex)

/-- The sixteen lowercase hex digit characters. -/
def lowerHexDigits : List Char :=
  ['0', '1', '2', '3', '4', '5', '6', '7', '8', '9'] ++
    ['a', 'b', 'c', 'd', 'e', 'f']

/-- A well-formed 6-digit lowercase hex color string: `'#'` followed by
exactly six lowercase hex digits. -/
def WellFormedHex (s : String) : Prop :=
  s.length = 7 ∧ s.data.getD 0 ' ' = '#' ∧ ∀ c ∈ s.data.drop 1, c ∈ lowerHexDigits

/-- Numeric value of a lowercase hex digit. -/
def hv (c : Char) : ℕ := (hexDigitVal c).getD 0

theorem hexDigitVal_eq {c : Char} (h : c ∈ lowerHexDigits) :
    hexDigitVal c = some (hv c) := by
  fin_cases h <;> decide

theorem hv_lt {c : Char} (h : c ∈ lowerHexDigits) : hv c < 16 := by
  fin_cases h <;> decide

theorem digitChar_hv {c : Char} (h : c ∈ lowerHexDigits) :
    Nat.digitChar (hv c) = c := by
  fin_cases h <;> decide

set_option maxRecDepth 8000 in
/-- Formatting core, checked exhaustively over the 256 channel values:
`toString(16).padStart(2, '0')` of `n < 256` is the two hex digits of `n`. -/
theorem toDigits_two : ∀ n : ℕ, n < 256 →
    padStart2 (Nat.toDigits 16 n).asString =
      ⟨[Nat.digitChar (n / 16), Nat.digitChar (n % 16)]⟩ := by
  decide

/-- `hex (n/255)` renders the two hex digits of `n`, for `n < 256`. -/
theorem hex_eq (n : ℕ) (hn : n < 256) :
    hex ((n : ℚ) / 255) = ⟨[Nat.digitChar (n / 16), Nat.digitChar (n % 16)]⟩ := by
  unfold hex
  have he : ((n : ℚ) / 255 * 255) = (n : ℚ) := by
    rw [div_mul_cancel₀]
    norm_num
  rw [he]
  have hc : ((n : ℚ)).ceil = (n : ℤ) := by
    have h1 : ((n : ℚ)).den = 1 := Rat.den_natCast n
    simp [Rat.ceil, h1]
  rw [hc]
  unfold intToHexStr
  rw [if_neg (by simp : ¬ ((n : ℤ) < 0))]
  rw [Int.toNat_natCast]
  exact toDigits_two n hn

theorem parseIntHex_two {c d : Char} (hc : c ∈ lowerHexDigits)
    (hd : d ∈ lowerHexDigits) :
    parseIntHex [c, d] = some (16 * hv c + hv d) := by
  have hc' := hexDigitVal_eq hc
  have hd' := hexDigitVal_eq hd
  simp [parseIntHex, hc', hd', List.takeWhile]

/-- C6: for every well-formed 6-digit lowercase hex color string `s`,
`formatColor(parseColor(s)) == s`: `getStdColor` parses `s` into three finite
channels (each the parsed integer divided by 255) and `getColorStr` (with any
ambient `ctx.stdColor`) formats that triple back to exactly `s`. -/
theorem claim6_color_roundtrip (s : String) (stdColor : List ℚ)
    (h : WellFormedHex s) :
    ∃ rgb : List ℚ, getStdColor s = rgb.map some ∧
      getColorStr stdColor (some rgb) = s := by
  obtain ⟨hlen, hhash, hdigits⟩ := h
  obtain ⟨data⟩ := s
  have hlen' : data.length = 7 := hlen
  rcases data with _ | ⟨a0, _ | ⟨a1, _ | ⟨a2, _ | ⟨a3, _ | ⟨a4, _ | ⟨a5, _ |
    ⟨a6, _ | ⟨a7, rest⟩⟩⟩⟩⟩⟩⟩⟩ <;>
      simp only [List.length_cons, List.length_nil] at hlen' <;> try omega
  have ha0 : a0 = '#' := by simpa using hhash
  subst ha0
  have h1 : a1 ∈ lowerHexDigits := hdigits _ (by simp)
  have h2 : a2 ∈ lowerHexDigits := hdigits _ (by simp)
  have h3 : a3 ∈ lowerHexDigits := hdigits _ (by simp)
  have h4 : a4 ∈ lowerHexDigits := hdigits _ (by simp)
  have h5 : a5 ∈ lowerHexDigits := hdigits _ (by simp)
  have h6 : a6 ∈ lowerHexDigits := hdigits _ (by simp)
  refine ⟨[((16 * hv a1 + hv a2 : ℕ) : ℚ) / 255, ((16 * hv a3 + hv a4 : ℕ) : ℚ) / 255,
    ((16 * hv a5 + hv a6 : ℕ) : ℚ) / 255], ?_, ?_⟩
  · simp only [getStdColor, String.length, List.length_cons, List.length_nil,
      List.map_cons, List.map_nil]
    norm_num [show List.range 3 = [0, 1, 2] from rfl,
      parseIntHex_two h1 h2, parseIntHex_two h3 h4, parseIntHex_two h5 h6]
  · have e1 := hex_eq (16 * hv a1 + hv a2) (by have := hv_lt h1; have := hv_lt h2; omega)
    have e2 := hex_eq (16 * hv a3 + hv a4) (by have := hv_lt h3; have := hv_lt h4; omega)
    have e3 := hex_eq (16 * hv a5 + hv a6) (by have := hv_lt h5; have := hv_lt h6; omega)
    have d1 : (16 * hv a1 + hv a2) / 16 = hv a1 := by have := hv_lt h2; omega
    have d2 : (16 * hv a1 + hv a2) % 16 = hv a2 := by have := hv_lt h2; omega
    have d3 : (16 * hv a3 + hv a4) / 16 = hv a3 := by have := hv_lt h4; omega
    have d4 : (16 * hv a3 + hv a4) % 16 = hv a4 := by have := hv_lt h4; omega
    have d5 : (16 * hv a5 + hv a6) / 16 = hv a5 := by have := hv_lt h6; omega
    have d6 : (16 * hv a5 + hv a6) % 16 = hv a6 := by have := hv_lt h6; omega
    simp only [getColorStr, List.map_cons, List.map_nil, e1, e2, e3,
      d1, d2, d3, d4, d5, d6, digitChar_hv h1, digitChar_hv h2, digitChar_hv h3,
      digitChar_hv h4, digitChar_hv h5, digitChar_hv h6]
    rfl

/-! ### Toolkit lemmas for the JS number model -/

theorem jadd_some (a b : ℝ) : jadd (some a) (some b) = some (a + b) := rfl

theorem jsub_some (a b : ℝ) : jsub (some a) (some b) = some (a - b) := rfl

theorem jmul_some (a b : ℝ) : jmul (some a) (some b) = some (a * b) := rfl

theorem jadd_none_right (a : Jv) : jadd a none = none := by cases a <;> rfl

theorem jadd_none_left (a : Jv) : jadd none a = none := rfl

theorem jsub_none_right (a : Jv) : jsub a none = none := by cases a <;> rfl

theorem jsub_none_left (a : Jv) : jsub none a = none := rfl

theorem jmul_none_right (a : Jv) : jmul a none = none := by cases a <;> rfl

theorem jmul_none_left (a : Jv) : jmul none a = none := rfl

theorem jneg_some (a : ℝ) : jneg (some a) = some (-a) := rfl

theorem jdiv_none_right (a : Jv) : jdiv a none = none := by cases a <;> rfl

theorem jdiv_none_left (a : Jv) : jdiv none a = none := rfl

theorem jdiv_zero_right (a : Jv) : jdiv a (some 0) = none := by
  cases a with
  | none => rfl
  | some a => simp [jdiv]

theorem jdiv_some (a b : ℝ) (hb : b ≠ 0) : jdiv (some a) (some b) = some (a / b) := by
  simp [jdiv, hb]

theorem jsqrt_some (a : ℝ) (h : 0 ≤ a) : jsqrt (some a) = some (Real.sqrt a) := by
  simp [jsqrt, h]

theorem jsum_map_some (l : List ℝ) : jsum (l.map some) = some l.sum := by
  suffices h : ∀ (l : List ℝ) (a : ℝ), ((l.map some).foldl jadd (some a)) = some (a + l.sum) by
    have := h l 0
    simpa [jsum] using this
  intro l
  induction l with
  | nil => intro a; simp
  | cons x xs ih =>
    intro a
    simp only [List.map_cons, List.foldl_cons, jadd_some, List.sum_cons, ih]
    ring_nf

theorem jmins_map_some (a : ℝ) (l : List ℝ) :
    jmins ((a :: l).map some) = some (l.foldl min a) := by
  unfold jmins
  simp only [List.map_cons]
  induction l generalizing a with
  | nil => simp
  | cons x xs ih => simpa using ih (min a x)

theorem jmaxs_map_some (a : ℝ) (l : List ℝ) :
    jmaxs ((a :: l).map some) = some (l.foldl max a) := by
  unfold jmaxs
  simp only [List.map_cons]
  induction l generalizing a with
  | nil => simp
  | cons x xs ih => simpa using ih (max a x)

theorem foldl_min_le_init : ∀ (l : List ℝ) (a : ℝ), l.foldl min a ≤ a := by
  intro l
  induction l with
  | nil => intro a; simp
  | cons x xs ih =>
    intro a
    simpa using (ih (min a x)).trans (min_le_left a x)

theorem foldl_min_le_mem : ∀ (l : List ℝ) (a x : ℝ), x ∈ l → l.foldl min a ≤ x := by
  intro l
  induction l with
  | nil => intro a x hx; simp at hx
  | cons y ys ih =>
    intro a x hx
    rcases List.mem_cons.mp hx with h | h
    · subst h
      simpa using (foldl_min_le_init ys (min a x)).trans (min_le_right a x)
    · simpa using ih (min a y) x h

theorem le_foldl_max_init : ∀ (l : List ℝ) (a : ℝ), a ≤ l.foldl max a := by
  intro l
  induction l with
  | nil => intro a; simp
  | cons x xs ih =>
    intro a
    simpa using (le_max_left a x).trans (ih (max a x))

theorem le_foldl_max_mem : ∀ (l : List ℝ) (a x : ℝ), x ∈ l → x ≤ l.foldl max a := by
  intro l
  induction l with
  | nil => intro a x hx; simp at hx
  | cons y ys ih =>
    intro a x hx
    rcases List.mem_cons.mp hx with h | h
    · subst h
      simpa using (le_max_right a x).trans (le_foldl_max_init ys (max a x))
    · simpa using ih (max a y) x h

theorem jmins_const {x0 : ℝ} : ∀ (l : List Jv), l ≠ [] → (∀ v ∈ l, v = some x0) →
    jmins l = some x0 := by
  intro l
  match l with
  | [] => intro h; exact absurd rfl h
  | v :: vs =>
    intro _ hall
    have hv : v = some x0 := hall v (by simp)
    subst hv
    unfold jmins
    induction vs with
    | nil => rfl
    | cons w ws ih =>
      have hw : w = some x0 := hall w (by simp)
      subst hw
      simp only [List.foldl_cons, min_self]
      exact ih (by simp) (fun u hu => hall u (by simp [List.mem_cons] at hu ⊢; tauto))

theorem jmaxs_const {x0 : ℝ} : ∀ (l : List Jv), l ≠ [] → (∀ v ∈ l, v = some x0) →
    jmaxs l = some x0 := by
  intro l
  match l with
  | [] => intro h; exact absurd rfl h
  | v :: vs =>
    intro _ hall
    have hv : v = some x0 := hall v (by simp)
    subst hv
    unfold jmaxs
    induction vs with
    | nil => rfl
    | cons w ws ih =>
      have hw : w = some x0 := hall w (by simp)
      subst hw
      simp only [List.foldl_cons, max_self]
      exact ih (by simp) (fun u hu => hall u (by simp [List.mem_cons] at hu ⊢; tauto))

/-- Default point used with `getD` on output lists. -/
def defaultJP : JPoint := ⟨[], none⟩

theorem sumsq_nonneg (l : List ℝ) : 0 ≤ (l.map (fun x => x * x)).sum := by
  apply List.sum_nonneg
  intro x hx
  obtain ⟨a, _, rfl⟩ := List.mem_map.mp hx
  exact mul_self_nonneg a

theorem vlen_map_mul (rq : List ℝ) (c : ℝ) :
    vlen (rq.map (fun x => x * c)) = |c| * vlen rq := by
  unfold vlen
  rw [List.map_map]
  have h1 : rq.map ((fun x => x * x) ∘ fun x => x * c) =
      rq.map (fun x => (x * x) * (c * c)) := by
    apply List.map_congr_left
    intro a _
    simp only [Function.comp_apply]
    ring
  rw [h1, List.sum_map_mul_right, Real.sqrt_mul (sumsq_nonneg rq),
    show c * c = c ^ 2 by ring, Real.sqrt_sq_eq_abs]
  ring

/-- Evaluation of the `findR`/`findA` linear remap on realized values with a
nondegenerate observed range. -/
theorem findR_eval (rMin rMax x xm xM : ℝ) (hne : xM - xm ≠ 0) :
    jadd (some rMin) (jdiv (jmul (jsub (some rMax) (some rMin))
      (jsub (some x) (some xm))) (jsub (some xM) (some xm))) =
      some (rMin + (rMax - rMin) * (x - xm) / (xM - xm)) := by
  rw [jsub_some, jsub_some, jsub_some, jmul_some, jdiv_some _ _ hne, jadd_some]

theorem radius_nonneg (rMin rMax x xm xM : ℝ) (h1 : xm ≤ x) (h2 : x ≤ xM)
    (hlt : xm < xM) (hr1 : 0 ≤ rMin) (hr2 : 0 ≤ rMax) :
    0 ≤ rMin + (rMax - rMin) * (x - xm) / (xM - xm) := by
  have hd : 0 < xM - xm := by linarith
  rw [mul_div_assoc]
  set t := (x - xm) / (xM - xm) with ht
  have ht0 : 0 ≤ t := div_nonneg (by linarith) hd.le
  have ht1 : t ≤ 1 := by
    rw [ht, div_le_one hd]
    linarith
  nlinarith

theorem explodeND_point (rq : List ℝ) (L r : ℝ) (hL : L ≠ 0) :
    (rq.map some).map (fun x => jmul (jdiv x (some L)) (some r)) =
      (rq.map (fun x => x / L * r)).map some := by
  induction rq with
  | nil => rfl
  | cons x xs ih => simp [jdiv_some _ _ hL, jmul_some, ih]

theorem getD_map_some_zero (l : List ℝ) (h : l ≠ []) :
    (l.map some).getD 0 none = some (l.getD 0 0) := by
  rcases l with _ | ⟨a, t⟩
  · exact absurd rfl h
  · rfl

theorem getD_map_some (l : List ℝ) (i : ℕ) (h : i < l.length) :
    (l.map some).getD i none = some (l.getD i 0) := by
  rw [List.getD_eq_getElem _ _ (by simpa using h), List.getD_eq_getElem _ _ h,
    List.getElem_map]

/-- On realized points with no empty point, the `pts.map(x => x[0])` list is
the realized list of first coordinates. -/
theorem firsts_realized (pts : List JPoint) (cs : List (List ℝ))
    (hc : pts.map JPoint.coords = cs.map (List.map some))
    (hne : ∀ c ∈ cs, c ≠ []) :
    (pts.map fun p => p.coords.getD 0 none)
      = (cs.map fun c => c.getD 0 0).map some := by
  have h1 : (pts.map fun p => p.coords.getD 0 none)
      = (pts.map JPoint.coords).map (fun l => l.getD 0 none) := by
    rw [List.map_map]
    rfl
  rw [h1, hc, List.map_map, List.map_map]
  apply List.map_congr_left
  intro c hcm
  rcases c with _ | ⟨a, c⟩
  · exact absurd rfl (hne _ hcm)
  · rfl

/-- Radial-explode (N-D) on realized input: with nonempty points whose tails
have nonzero squared length, first coordinates not all equal, and nonnegative
radius bounds, the output has one point per input point; output point `i` is
finite, its Euclidean norm is exactly the radius remapped from input `i`'s
first coordinate over the observed range `[xm, xM]`, and it carries
`labels[i]`. -/
theorem explodeND_spec (pts : List JPoint) (cs : List (List ℝ)) (labels : List String)
    (rMin rMax : ℝ)
    (hc : pts.map JPoint.coords = cs.map (List.map some))
    (hne : ∀ c ∈ cs, c ≠ [])
    (htail : ∀ c ∈ cs, ((c.drop 1).map (fun x => x * x)).sum ≠ 0)
    (hx : ∃ c1 ∈ cs, ∃ c2 ∈ cs, c1.getD 0 0 ≠ c2.getD 0 0)
    (hr1 : 0 ≤ rMin) (hr2 : 0 ≤ rMax) :
    ∃ xm xM : ℝ,
      jmins (pts.map fun p => p.coords.getD 0 none) = some xm ∧
      jmaxs (pts.map fun p => p.coords.getD 0 none) = some xM ∧
      xm < xM ∧
      (explodeNDPoints pts labels (some rMin) (some rMax)).2.length = pts.length ∧
      ∀ i, i < pts.length →
        ∃ rc : List ℝ,
          ((explodeNDPoints pts labels (some rMin) (some rMax)).2.getD i defaultJP).coords
            = rc.map some ∧
          vlen rc = rMin + (rMax - rMin) * ((cs.getD i []).getD 0 0 - xm) / (xM - xm) ∧
          ((explodeNDPoints pts labels (some rMin) (some rMax)).2.getD i defaultJP).label
            = labels.get? i := by
  have hfc : (pts.map fun p => p.coords.getD 0 none)
      = (cs.map fun c => c.getD 0 0).map some := firsts_realized pts cs hc hne
  rcases cs with _ | ⟨c0, crest⟩
  · obtain ⟨c1, hc1, -⟩ := hx
    simp at hc1
  have hlen_eq : pts.length = (c0 :: crest).length := by
    have h := congrArg List.length hc
    simpa using h
  set f0 := c0.getD 0 0 with hf0
  set frest := crest.map (fun c => c.getD 0 0) with hfrest
  set xm := frest.foldl min f0 with hxm
  set xM := frest.foldl max f0 with hxM
  have hmins : jmins (pts.map fun p => p.coords.getD 0 none) = some xm := by
    rw [hfc]
    exact jmins_map_some f0 frest
  have hmaxs : jmaxs (pts.map fun p => p.coords.getD 0 none) = some xM := by
    rw [hfc]
    exact jmaxs_map_some f0 frest
  have hminle : ∀ y ∈ f0 :: frest, xm ≤ y := by
    intro y hy
    rcases List.mem_cons.mp hy with h | h
    · exact h ▸ foldl_min_le_init frest f0
    · exact foldl_min_le_mem frest f0 y h
  have hmaxge : ∀ y ∈ f0 :: frest, y ≤ xM := by
    intro y hy
    rcases List.mem_cons.mp hy with h | h
    · exact h ▸ le_foldl_max_init frest f0
    · exact le_foldl_max_mem frest f0 y h
  have hfmem : ∀ c ∈ c0 :: crest, c.getD 0 0 ∈ f0 :: frest := by
    intro c hcm
    rcases List.mem_cons.mp hcm with h | h
    · subst h
      exact List.mem_cons_self _ _
    · exact List.mem_cons_of_mem _ (List.mem_map_of_mem _ h)
  have hlt : xm < xM := by
    obtain ⟨c1, hc1, c2, hc2, hne12⟩ := hx
    have m1 := hfmem c1 hc1
    have m2 := hfmem c2 hc2
    rcases lt_or_le xm xM with h | h
    · exact h
    · exact absurd (le_antisymm ((hmaxge _ m1).trans (h.trans (hminle _ m2)))
        ((hmaxge _ m2).trans (h.trans (hminle _ m1)))) hne12
  have hsubne : xM - xm ≠ 0 := sub_ne_zero.mpr hlt.ne'
  refine ⟨xm, xM, hmins, hmaxs, hlt, by simp [explodeNDPoints], ?_⟩
  intro i hi
  have hics : i < (c0 :: crest).length := hlen_eq ▸ hi
  have hpi : (pts[i]).coords = ((c0 :: crest).getD i []).map some := by
    have e1 := List.getElem_of_eq hc (by simpa using hi)
    rw [List.getElem_map, List.getElem_map] at e1
    rw [List.getD_eq_getElem _ _ hics]
    exact e1
  set rc := (c0 :: crest).getD i [] with hrc
  have hrcmem : rc ∈ c0 :: crest := by
    rw [hrc, List.getD_eq_getElem _ _ hics]
    exact List.getElem_mem hics
  have hrcne : rc ≠ [] := hne rc hrcmem
  have hrtail : ((rc.drop 1).map (fun x => x * x)).sum ≠ 0 := htail rc hrcmem
  set s := ((rc.drop 1).map (fun x => x * x)).sum with hs
  have hs0 : 0 ≤ s := sumsq_nonneg _
  have hspos : 0 < s := lt_of_le_of_ne hs0 (Ne.symm hrtail)
  set L := Real.sqrt s with hL
  have hLpos : 0 < L := Real.sqrt_pos.mpr hspos
  set x0 := rc.getD 0 0 with hx0
  set rr := rMin + (rMax - rMin) * (x0 - xm) / (xM - xm) with hrr
  have hq : ((rc.drop 1).map some).map (fun x => jmul x x)
      = ((rc.drop 1).map (fun x => x * x)).map some := by
    rw [List.map_map, List.map_map]
    apply List.map_congr_left
    intro a _
    rfl
  have hout : (explodeNDPoints pts labels (some rMin) (some rMax)).2.getD i defaultJP
      = ⟨((rc.drop 1).map (fun x => x / L * rr)).map some, labels.get? i⟩ := by
    simp only [explodeNDPoints]
    rw [List.getD_eq_getElem _ _ (by simpa using hi)]
    rw [List.getElem_mapIdx]
    rw [hpi, hmins, hmaxs, ← List.map_drop some rc 1, hq, jsum_map_some, ← hs,
      jsqrt_some s hs0, ← hL, getD_map_some_zero rc hrcne, ← hx0,
      findR_eval rMin rMax x0 xm xM hsubne, ← hrr,
      explodeND_point (rc.drop 1) L rr hLpos.ne']
  refine ⟨(rc.drop 1).map (fun x => x / L * rr), ?_, ?_, ?_⟩
  · rw [hout]
  · have h1 : (rc.drop 1).map (fun x => x / L * rr)
        = (rc.drop 1).map (fun x => x * (rr / L)) := by
      apply List.map_congr_left
      intro a _
      ring
    have hv : vlen (rc.drop 1) = L := rfl
    have hxmem := hfmem rc hrcmem
    have hrr0 : 0 ≤ rr :=
      radius_nonneg rMin rMax x0 xm xM (hminle _ hxmem) (hmaxge _ hxmem) hlt hr1 hr2
    rw [h1, vlen_map_mul, hv, abs_of_nonneg (div_nonneg hrr0 hLpos.le),
      div_mul_cancel₀ _ hLpos.ne']
  · rw [hout]

theorem vlen_pair (u v : ℝ) : vlen [u, v] = Real.sqrt (u * u + v * v) := by
  unfold vlen
  norm_num

theorem vlen_rotate (a u v : ℝ) :
    vlen [Real.cos a * u - Real.sin a * v, Real.sin a * u + Real.cos a * v]
      = vlen [u, v] := by
  rw [vlen_pair, vlen_pair]
  congr 1
  linear_combination (u * u + v * v) * (Real.sin_sq_add_cos_sq a)

/-- Radial-explode (3D) on realized 3-coordinate input, for every
`doKeepCoords` flag and every (absent or finite) pair of angle bounds: with
nonzero `(y,z)`-length, first coordinates not all equal, and nonnegative
radius bounds, the output is one 2D point per input point, finite, of
Euclidean norm exactly the remapped radius, carrying `labels[i]`. -/
theorem explode3D_spec (pts : List JPoint) (cs : List (List ℝ)) (labels : List String)
    (rMin rMax : ℝ) (rangles : Option (ℝ × ℝ)) (doKeepCoords : Bool)
    (hc : pts.map JPoint.coords = cs.map (List.map some))
    (h3 : ∀ c ∈ cs, c.length = 3)
    (htail : ∀ c ∈ cs, c.getD 1 0 * c.getD 1 0 + c.getD 2 0 * c.getD 2 0 ≠ 0)
    (hx : ∃ c1 ∈ cs, ∃ c2 ∈ cs, c1.getD 0 0 ≠ c2.getD 0 0)
    (hr1 : 0 ≤ rMin) (hr2 : 0 ≤ rMax) :
    ∃ xm xM : ℝ,
      jmins (pts.map fun p => p.coords.getD 0 none) = some xm ∧
      jmaxs (pts.map fun p => p.coords.getD 0 none) = some xM ∧
      xm < xM ∧
      (explode3DPoints pts labels (some rMin) (some rMax)
        (rangles.map (fun ab => (some ab.1, some ab.2))) doKeepCoords).2.length
        = pts.length ∧
      ∀ i, i < pts.length →
        ∃ rc : List ℝ,
          ((explode3DPoints pts labels (some rMin) (some rMax)
            (rangles.map (fun ab => (some ab.1, some ab.2))) doKeepCoords).2.getD
              i defaultJP).coords = rc.map some ∧
          vlen rc = rMin + (rMax - rMin) * ((cs.getD i []).getD 0 0 - xm) / (xM - xm) ∧
          ((explode3DPoints pts labels (some rMin) (some rMax)
            (rangles.map (fun ab => (some ab.1, some ab.2))) doKeepCoords).2.getD
              i defaultJP).label = labels.get? i := by
  have hne : ∀ c ∈ cs, c ≠ [] := by
    intro c hcm h0
    have := h3 c hcm
    rw [h0] at this
    simp at this
  have hfc : (pts.map fun p => p.coords.getD 0 none)
      = (cs.map fun c => c.getD 0 0).map some := firsts_realized pts cs hc hne
  rcases cs with _ | ⟨c0, crest⟩
  · obtain ⟨c1, hc1, -⟩ := hx
    simp at hc1
  have hlen_eq : pts.length = (c0 :: crest).length := by
    have h := congrArg List.length hc
    simpa using h
  set f0 := c0.getD 0 0 with hf0
  set frest := crest.map (fun c => c.getD 0 0) with hfrest
  set xm := frest.foldl min f0 with hxm
  set xM := frest.foldl max f0 with hxM
  have hmins : jmins (pts.map fun p => p.coords.getD 0 none) = some xm := by
    rw [hfc]
    exact jmins_map_some f0 frest
  have hmaxs : jmaxs (pts.map fun p => p.coords.getD 0 none) = some xM := by
    rw [hfc]
    exact jmaxs_map_some f0 frest
  have hminle : ∀ y ∈ f0 :: frest, xm ≤ y := by
    intro y hy
    rcases List.mem_cons.mp hy with h | h
    · exact h ▸ foldl_min_le_init frest f0
    · exact foldl_min_le_mem frest f0 y h
  have hmaxge : ∀ y ∈ f0 :: frest, y ≤ xM := by
    intro y hy
    rcases List.mem_cons.mp hy with h | h
    · exact h ▸ le_foldl_max_init frest f0
    · exact le_foldl_max_mem frest f0 y h
  have hfmem : ∀ c ∈ c0 :: crest, c.getD 0 0 ∈ f0 :: frest := by
    intro c hcm
    rcases List.mem_cons.mp hcm with h | h
    · subst h
      exact List.mem_cons_self _ _
    · exact List.mem_cons_of_mem _ (List.mem_map_of_mem _ h)
  have hlt : xm < xM := by
    obtain ⟨c1, hc1, c2, hc2, hne12⟩ := hx
    have m1 := hfmem c1 hc1
    have m2 := hfmem c2 hc2
    rcases lt_or_le xm xM with h | h
    · exact h
    · exact absurd (le_antisymm ((hmaxge _ m1).trans (h.trans (hminle _ m2)))
        ((hmaxge _ m2).trans (h.trans (hminle _ m1)))) hne12
  have hsubne : xM - xm ≠ 0 := sub_ne_zero.mpr hlt.ne'
  refine ⟨xm, xM, hmins, hmaxs, hlt, by simp [explode3DPoints], ?_⟩
  intro i hi
  have hics : i < (c0 :: crest).length := hlen_eq ▸ hi
  have hpi : (pts[i]).coords = ((c0 :: crest).getD i []).map some := by
    have e1 := List.getElem_of_eq hc (by simpa using hi)
    rw [List.getElem_map, List.getElem_map] at e1
    rw [List.getD_eq_getElem _ _ hics]
    exact e1
  set rc := (c0 :: crest).getD i [] with hrc
  have hrcmem : rc ∈ c0 :: crest := by
    rw [hrc, List.getD_eq_getElem _ _ hics]
    exact List.getElem_mem hics
  have hrc3 : rc.length = 3 := h3 rc hrcmem
  set x0 := rc.getD 0 0 with hx0
  set y0 := rc.getD 1 0 with hy0
  set z0 := rc.getD 2 0 with hz0
  have hs2ne : y0 * y0 + z0 * z0 ≠ 0 := htail rc hrcmem
  have hs2nonneg : 0 ≤ y0 * y0 + z0 * z0 :=
    add_nonneg (mul_self_nonneg _) (mul_self_nonneg _)
  set L := Real.sqrt (y0 * y0 + z0 * z0) with hL
  have hLpos : 0 < L := Real.sqrt_pos.mpr (lt_of_le_of_ne hs2nonneg (Ne.symm hs2ne))
  set rr := rMin + (rMax - rMin) * (x0 - xm) / (xM - xm) with hrr
  have hrr0 : 0 ≤ rr :=
    radius_nonneg rMin rMax x0 xm xM (hminle _ (hfmem rc hrcmem))
      (hmaxge _ (hfmem rc hrcmem)) hlt hr1 hr2
  set u := if doKeepCoords then y0 / L * rr else -z0 / L * rr with hu
  set v := if doKeepCoords then z0 / L * rr else y0 / L * rr with hv
  have hvlen_uv : vlen [u, v] = rr := by
    have huv : [u, v] = [if doKeepCoords then y0 else -z0,
        if doKeepCoords then z0 else y0].map (fun t => t * (rr / L)) := by
      cases doKeepCoords <;> simp [hu, hv] <;> constructor <;> ring
    rw [huv, vlen_map_mul, abs_of_nonneg (div_nonneg hrr0 hLpos.le)]
    have hbase : vlen [if doKeepCoords then y0 else -z0,
        if doKeepCoords then z0 else y0] = L := by
      cases doKeepCoords <;> simp only [if_true, if_false, Bool.false_eq_true] <;>
        rw [vlen_pair, hL] <;> congr 1 <;> ring
    rw [hbase]
    field_simp
  have hg0 : (rc.map some).getD 0 none = some x0 := getD_map_some rc 0 (by omega)
  have hg1 : (rc.map some).getD 1 none = some y0 := getD_map_some rc 1 (by omega)
  have hg2 : (rc.map some).getD 2 none = some z0 := getD_map_some rc 2 (by omega)
  rcases rangles with _ | ⟨aMin, aMax⟩
  · -- no rotation
    have hout : (explode3DPoints pts labels (some rMin) (some rMax) none doKeepCoords).2.getD
        i defaultJP = ⟨[some u, some v], labels.get? i⟩ := by
      simp only [explode3DPoints, Option.map_none']
      rw [List.getD_eq_getElem _ _ (by simpa using hi)]
      rw [List.getElem_mapIdx]
      rw [hpi, hmins, hmaxs, hg0, hg1, hg2, jmul_some, jmul_some, jadd_some,
        jsqrt_some _ hs2nonneg, ← hL, findR_eval rMin rMax x0 xm xM hsubne, ← hrr]
      cases doKeepCoords <;>
        simp only [hu, hv, jneg_some, Bool.false_eq_true, if_false, if_true] <;>
        rw [jdiv_some _ _ hLpos.ne', jdiv_some _ _ hLpos.ne', jmul_some, jmul_some] <;>
        rfl
    refine ⟨[u, v], by simp only [Option.map_none']; rw [hout]; rfl, by rw [hvlen_uv],
      by simp only [Option.map_none']; rw [hout]⟩
  · -- rotation by the interpolated angle
    set aa := aMin + (aMax - aMin) * (x0 - xm) / (xM - xm) with haa
    have hout : (explode3DPoints pts labels (some rMin) (some rMax)
        (some (some aMin, some aMax)) doKeepCoords).2.getD i defaultJP
        = ⟨[some (Real.cos aa * u - Real.sin aa * v),
            some (Real.sin aa * u + Real.cos aa * v)], labels.get? i⟩ := by
      simp only [explode3DPoints, Option.map_some']
      rw [List.getD_eq_getElem _ _ (by simpa using hi)]
      rw [List.getElem_mapIdx]
      rw [hpi, hmins, hmaxs, hg0, hg1, hg2, jmul_some, jmul_some, jadd_some,
        jsqrt_some _ hs2nonneg, ← hL, findR_eval rMin rMax x0 xm xM hsubne, ← hrr,
        findR_eval aMin aMax x0 xm xM hsubne, ← haa]
      cases doKeepCoords <;>
        simp only [hu, hv, jneg_some, Bool.false_eq_true, if_false, if_true] <;>
        rw [jdiv_some _ _ hLpos.ne', jdiv_some _ _ hLpos.ne', jmul_some, jmul_some] <;>
        rfl
    refine ⟨[Real.cos aa * u - Real.sin aa * v, Real.sin aa * u + Real.cos aa * v],
      by simp only [Option.map_some']; rw [hout]; rfl, ?_,
      by simp only [Option.map_some']; rw [hout]⟩
    rw [vlen_rotate, hvlen_uv]

theorem map_some_none {g : Jv → Jv} (h : ∀ a : ℝ, g (some a) = none) (l : List ℝ) :
    (l.map some).map g = l.map (fun _ => none) := by
  induction l with
  | nil => rfl
  | cons a t ih => simp [h, ih]

theorem map_constant_none {g : Jv → Jv} (h : ∀ x : Jv, g x = none) (l : List Jv) :
    l.map g = l.map (fun _ => none) :=
  List.map_congr_left (fun a _ => h a)

/-- N-D explode on a point lying exactly on the depth axis (its non-depth
coordinates have squared length 0): the call completes, and that point's
output components are all non-finite. -/
theorem explodeND_zero_len (pts : List JPoint) (labels : List String)
    (rMin rMax : Jv) (i : ℕ) (hi : i < pts.length) (rtail : List ℝ)
    (hq : (pts[i]).coords.drop 1 = rtail.map some)
    (hzero : (rtail.map (fun x => x * x)).sum = 0) :
    ((explodeNDPoints pts labels rMin rMax).2.getD i defaultJP).coords
      = rtail.map (fun _ => none) := by
  simp only [explodeNDPoints]
  rw [List.getD_eq_getElem _ _ (by simpa using hi), List.getElem_mapIdx, hq]
  have hqmap : (rtail.map some).map (fun x => jmul x x)
      = (rtail.map (fun x => x * x)).map some := by
    rw [List.map_map, List.map_map]
    apply List.map_congr_left
    intro a _
    rfl
  rw [hqmap, jsum_map_some, hzero, jsqrt_some _ le_rfl, Real.sqrt_zero]
  exact map_some_none (fun a => by rw [jdiv_zero_right, jmul_none_left]) rtail

set_option maxHeartbeats 1000000 in
/-- 3D explode on a point lying exactly on the depth axis (`y² + z² = 0`):
that point's output, rotated or not, is `[NaN/∞, NaN/∞]`. -/
theorem explode3D_zero_len (pts : List JPoint) (labels : List String)
    (rMin rMax : Jv) (angles : Option (Jv × Jv)) (doKeepCoords : Bool)
    (i : ℕ) (hi : i < pts.length) (y z : ℝ)
    (h1 : (pts[i]).coords.getD 1 none = some y)
    (h2 : (pts[i]).coords.getD 2 none = some z)
    (hzero : y * y + z * z = 0) :
    ((explode3DPoints pts labels rMin rMax angles doKeepCoords).2.getD
      i defaultJP).coords = [none, none] := by
  simp only [explode3DPoints]
  rw [List.getD_eq_getElem _ _ (by simpa using hi), List.getElem_mapIdx, h1, h2,
    jmul_some, jmul_some, jadd_some, hzero, jsqrt_some _ le_rfl, Real.sqrt_zero]
  cases doKeepCoords <;> rcases angles with _ | ⟨aMin, aMax⟩ <;>
    simp [jdiv_zero_right, jmul_none_left, jmul_none_right, jsub_none_left,
      jsub_none_right, jadd_none_left, jadd_none_right]

/-- N-D explode when all first coordinates are the same finite value: the
radius remap divides by zero, the call completes, and every output component
of every point is non-finite. -/
theorem explodeND_const_x (pts : List JPoint) (labels : List String)
    (rMin rMax : Jv) (x0 : ℝ)
    (hall : ∀ p ∈ pts, p.coords.getD 0 none = some x0)
    (i : ℕ) (hi : i < pts.length) :
    ((explodeNDPoints pts labels rMin rMax).2.getD i defaultJP).coords
      = ((pts[i]).coords.drop 1).map (fun _ => none) := by
  have hnil : pts ≠ [] := List.ne_nil_of_length_pos (by omega)
  have hmapne : pts.map (fun p => p.coords.getD 0 none) ≠ [] := by
    simpa using hnil
  have hconst : ∀ v ∈ pts.map (fun p => p.coords.getD 0 none), v = some x0 := by
    intro v hv
    obtain ⟨p, hp, rfl⟩ := List.mem_map.mp hv
    exact hall p hp
  have hmins := jmins_const _ hmapne hconst
  have hmaxs := jmaxs_const _ hmapne hconst
  have hz0 : jsub (some x0) (some x0) = some (0 : ℝ) := by
    rw [jsub_some, sub_self]
  simp only [explodeNDPoints]
  rw [List.getD_eq_getElem _ _ (by simpa using hi), List.getElem_mapIdx]
  simp only [hmins, hmaxs, hz0, jdiv_zero_right, jadd_none_right, jmul_none_right]

set_option maxHeartbeats 1000000 in
/-- 3D explode when all first coordinates are the same finite value: every
output point, rotated or not, is `[NaN/∞, NaN/∞]`. -/
theorem explode3D_const_x (pts : List JPoint) (labels : List String)
    (rMin rMax : Jv) (angles : Option (Jv × Jv)) (doKeepCoords : Bool) (x0 : ℝ)
    (hall : ∀ p ∈ pts, p.coords.getD 0 none = some x0)
    (i : ℕ) (hi : i < pts.length) :
    ((explode3DPoints pts labels rMin rMax angles doKeepCoords).2.getD
      i defaultJP).coords = [none, none] := by
  have hnil : pts ≠ [] := List.ne_nil_of_length_pos (by omega)
  have hmapne : pts.map (fun p => p.coords.getD 0 none) ≠ [] := by
    simpa using hnil
  have hconst : ∀ v ∈ pts.map (fun p => p.coords.getD 0 none), v = some x0 := by
    intro v hv
    obtain ⟨p, hp, rfl⟩ := List.mem_map.mp hv
    exact hall p hp
  have hmins := jmins_const _ hmapne hconst
  have hmaxs := jmaxs_const _ hmapne hconst
  have hz0 : jsub (some x0) (some x0) = some (0 : ℝ) := by
    rw [jsub_some, sub_self]
  simp only [explode3DPoints]
  rw [List.getD_eq_getElem _ _ (by simpa using hi), List.getElem_mapIdx]
  simp only [hmins, hmaxs, hz0, jdiv_zero_right, jadd_none_right]
  cases doKeepCoords <;> rcases angles with _ | ⟨aMin, aMax⟩ <;>
    simp [jdiv_zero_right, jmul_none_left, jmul_none_right, jsub_none_left,
      jsub_none_right, jadd_none_left, jadd_none_right]

theorem jdiv_map_some (l : List ℝ) (z : ℝ) (hz : z ≠ 0) :
    (l.map some).map (fun x => jdiv x (some z)) = l.map (fun x => some (x / z)) := by
  induction l with
  | nil => rfl
  | cons a t ih => simp [jdiv_some _ _ hz, ih]

/-- Perspective projection on realized input with positive `minZVal = m`: the
input is left unchanged; the translated depth of every point is a finite
`z ≥ m` (in particular nonzero); each output point is the input tail divided
by its depth — one dimension lower — labelled `labels[i]`. -/
theorem persp_spec (pts : List JPoint) (cs : List (List ℝ)) (labels : List String)
    (m : ℝ) (hm : 0 < m)
    (hc : pts.map JPoint.coords = cs.map (List.map some))
    (hne : ∀ c ∈ cs, c ≠ []) :
    (perspectiveProjectPoints pts labels (some (some m))).1 = pts ∧
    (perspectiveProjectPoints pts labels (some (some m))).2.length = pts.length ∧
    ∀ i, i < pts.length →
      ∃ z : ℝ, perspDepth pts (some m) i = some z ∧ m ≤ z ∧ z ≠ 0 ∧
        ((perspectiveProjectPoints pts labels (some (some m))).2.getD i defaultJP).coords
          = ((cs.getD i []).drop 1).map (fun x => some (x / z)) ∧
        ((perspectiveProjectPoints pts labels
            (some (some m))).2.getD i defaultJP).coords.length + 1
          = (cs.getD i []).length ∧
        ((perspectiveProjectPoints pts labels (some (some m))).2.getD i defaultJP).label
          = labels.get? i := by
  refine ⟨rfl, by simp [perspectiveProjectPoints], ?_⟩
  have hfc : (pts.map fun p => p.coords.getD 0 none)
      = (cs.map fun c => c.getD 0 0).map some := firsts_realized pts cs hc hne
  rcases cs with _ | ⟨c0, crest⟩
  · have hpts : pts = [] := by
      have h := congrArg List.length hc
      simpa using List.eq_nil_of_length_eq_zero (by simpa using h)
    subst hpts
    intro i hi
    simp at hi
  have hlen_eq : pts.length = (c0 :: crest).length := by
    have h := congrArg List.length hc
    simpa using h
  set f0 := c0.getD 0 0 with hf0
  set frest := crest.map (fun c => c.getD 0 0) with hfrest
  set xm := frest.foldl min f0 with hxm
  have hmins : jmins (pts.map fun p => p.coords.getD 0 none) = some xm := by
    rw [hfc]
    exact jmins_map_some f0 frest
  have hminle : ∀ y ∈ f0 :: frest, xm ≤ y := by
    intro y hy
    rcases List.mem_cons.mp hy with h | h
    · exact h ▸ foldl_min_le_init frest f0
    · exact foldl_min_le_mem frest f0 y h
  have hfmem : ∀ c ∈ c0 :: crest, c.getD 0 0 ∈ f0 :: frest := by
    intro c hcm
    rcases List.mem_cons.mp hcm with h | h
    · subst h
      exact List.mem_cons_self _ _
    · exact List.mem_cons_of_mem _ (List.mem_map_of_mem _ h)
  intro i hi
  have hics : i < (c0 :: crest).length := hlen_eq ▸ hi
  have hpi : (pts[i]).coords = ((c0 :: crest).getD i []).map some := by
    have e1 := List.getElem_of_eq hc (by simpa using hi)
    rw [List.getElem_map, List.getElem_map] at e1
    rw [List.getD_eq_getElem _ _ hics]
    exact e1
  set rc := (c0 :: crest).getD i [] with hrc
  have hrcmem : rc ∈ c0 :: crest := by
    rw [hrc, List.getD_eq_getElem _ _ hics]
    exact List.getElem_mem hics
  have hrcne : rc ≠ [] := hne rc hrcmem
  set x0 := rc.getD 0 0 with hx0
  have hx0ge : xm ≤ x0 := hminle _ (hfmem rc hrcmem)
  set z := x0 - xm + m with hz
  have hzm : m ≤ z := by
    rw [hz]
    linarith
  have hzne : z ≠ 0 := by
    have : 0 < z := lt_of_lt_of_le hm hzm
    exact this.ne'
  have hdepth : perspDepth pts (some m) i = some z := by
    unfold perspDepth
    rw [List.getD_eq_getElem _ _ hi, hpi, getD_map_some_zero rc hrcne, ← hx0,
      hmins, jsub_some, jadd_some]
  refine ⟨z, hdepth, hzm, hzne, ?_, ?_, ?_⟩
  · simp only [perspectiveProjectPoints]
    rw [List.getD_eq_getElem _ _ (by simpa using hi), List.getElem_mapIdx, hpi,
      getD_map_some_zero rc hrcne, ← hx0, hmins, jsub_some, jadd_some, ← hz,
      ← List.map_drop some rc 1, jdiv_map_some _ _ hzne]
  · simp only [perspectiveProjectPoints]
    rw [List.getD_eq_getElem _ _ (by simpa using hi), List.getElem_mapIdx]
    simp only [List.length_map, List.length_drop, hpi]
    have : rc.length ≠ 0 := by
      intro h0
      exact hrcne (List.eq_nil_of_length_eq_zero h0)
    omega
  · simp only [perspectiveProjectPoints]
    rw [List.getD_eq_getElem _ _ (by simpa using hi), List.getElem_mapIdx]

/-- Omitting `minZVal` is the same as passing the default 2. -/
theorem persp_default (pts : List JPoint) (labels : List String) :
    perspectiveProjectPoints pts labels none
      = perspectiveProjectPoints pts labels (some (some 2)) := rfl

/-- Perspective projection on realized input, for EVERY configured real
`minZVal = m`: the input is left unchanged; the translated depth of every
point is a finite `z ≥ m`; each output point is the input tail divided (in
JS arithmetic) by its depth — one dimension lower than its input point —
labelled `labels[i]`; and when `m` is positive the depth is moreover nonzero
and every output component is finite, `some (x / z)`. -/
theorem persp_spec_general (pts : List JPoint) (cs : List (List ℝ))
    (labels : List String) (m : ℝ)
    (hc : pts.map JPoint.coords = cs.map (List.map some))
    (hne : ∀ c ∈ cs, c ≠ []) :
    (perspectiveProjectPoints pts labels (some (some m))).1 = pts ∧
    (perspectiveProjectPoints pts labels (some (some m))).2.length = pts.length ∧
    ∀ i, i < pts.length →
      ∃ z : ℝ, perspDepth pts (some m) i = some z ∧ m ≤ z ∧
        ((perspectiveProjectPoints pts labels (some (some m))).2.getD i
          defaultJP).coords
          = ((cs.getD i []).drop 1).map (fun x => jdiv (some x) (some z)) ∧
        ((perspectiveProjectPoints pts labels
            (some (some m))).2.getD i defaultJP).coords.length + 1
          = (cs.getD i []).length ∧
        ((perspectiveProjectPoints pts labels (some (some m))).2.getD i
          defaultJP).label = labels.get? i ∧
        (0 < m → z ≠ 0 ∧
          ((perspectiveProjectPoints pts labels (some (some m))).2.getD i
            defaultJP).coords
            = ((cs.getD i []).drop 1).map (fun x => some (x / z))) := by
  refine ⟨rfl, by simp [perspectiveProjectPoints], ?_⟩
  have hfc : (pts.map fun p => p.coords.getD 0 none)
      = (cs.map fun c => c.getD 0 0).map some := firsts_realized pts cs hc hne
  rcases cs with _ | ⟨c0, crest⟩
  · have hpts : pts = [] := by
      have h := congrArg List.length hc
      simpa using List.eq_nil_of_length_eq_zero (by simpa using h)
    subst hpts
    intro i hi
    simp at hi
  have hlen_eq : pts.length = (c0 :: crest).length := by
    have h := congrArg List.length hc
    simpa using h
  set f0 := c0.getD 0 0 with hf0
  set frest := crest.map (fun c => c.getD 0 0) with hfrest
  set xm := frest.foldl min f0 with hxm
  have hmins : jmins (pts.map fun p => p.coords.getD 0 none) = some xm := by
    rw [hfc]
    exact jmins_map_some f0 frest
  have hminle : ∀ y ∈ f0 :: frest, xm ≤ y := by
    intro y hy
    rcases List.mem_cons.mp hy with h | h
    · exact h ▸ foldl_min_le_init frest f0
    · exact foldl_min_le_mem frest f0 y h
  have hfmem : ∀ c ∈ c0 :: crest, c.getD 0 0 ∈ f0 :: frest := by
    intro c hcm
    rcases List.mem_cons.mp hcm with h | h
    · subst h
      exact List.mem_cons_self _ _
    · exact List.mem_cons_of_mem _ (List.mem_map_of_mem _ h)
  intro i hi
  have hics : i < (c0 :: crest).length := hlen_eq ▸ hi
  have hpi : (pts[i]).coords = ((c0 :: crest).getD i []).map some := by
    have e1 := List.getElem_of_eq hc (by simpa using hi)
    rw [List.getElem_map, List.getElem_map] at e1
    rw [List.getD_eq_getElem _ _ hics]
    exact e1
  set rc := (c0 :: crest).getD i [] with hrc
  have hrcmem : rc ∈ c0 :: crest := by
    rw [hrc, List.getD_eq_getElem _ _ hics]
    exact List.getElem_mem hics
  have hrcne : rc ≠ [] := hne rc hrcmem
  set x0 := rc.getD 0 0 with hx0
  have hx0ge : xm ≤ x0 := hminle _ (hfmem rc hrcmem)
  set z := x0 - xm + m with hz
  have hzm : m ≤ z := by
    rw [hz]
    linarith
  have hdepth : perspDepth pts (some m) i = some z := by
    unfold perspDepth
    rw [List.getD_eq_getElem _ _ hi, hpi, getD_map_some_zero rc hrcne, ← hx0,
      hmins, jsub_some, jadd_some]
  refine ⟨z, hdepth, hzm, ?_, ?_, ?_, ?_⟩
  · simp only [perspectiveProjectPoints]
    rw [List.getD_eq_getElem _ _ (by simpa using hi), List.getElem_mapIdx, hpi,
      getD_map_some_zero rc hrcne, ← hx0, hmins, jsub_some, jadd_some, ← hz,
      ← List.map_drop some rc 1, List.map_map]
    rfl
  · simp only [perspectiveProjectPoints]
    rw [List.getD_eq_getElem _ _ (by simpa using hi), List.getElem_mapIdx]
    simp only [List.length_map, List.length_drop, hpi]
    have : rc.length ≠ 0 := by
      intro h0
      exact hrcne (List.eq_nil_of_length_eq_zero h0)
    omega
  · simp only [perspectiveProjectPoints]
    rw [List.getD_eq_getElem _ _ (by simpa using hi), List.getElem_mapIdx]
  · intro hm
    have hzne : z ≠ 0 := (lt_of_lt_of_le hm hzm).ne'
    refine ⟨hzne, ?_⟩
    simp only [perspectiveProjectPoints]
    rw [List.getD_eq_getElem _ _ (by simpa using hi), List.getElem_mapIdx, hpi,
      getD_map_some_zero rc hrcne, ← hx0, hmins, jsub_some, jadd_some, ← hz,
      ← List.map_drop some rc 1, jdiv_map_some _ _ hzne]

/-! ### The claims -/

open scoped Classical in
theorem mem_linesFrom {pts : List (List ℝ)} {eL : ℝ} {i j : ℕ} :
    ((i, j) ∈ linesFrom pts eL) ↔
      i < j ∧ j < pts.length ∧ isClose (vdist (pts.getD i []) (pts.getD j [])) eL := by
  unfold linesFrom
  rw [List.mem_filter, mem_pairsBelow]
  simp [and_assoc]

/-- C1: for each distance-matched generator (dodecahedron, icosahedron,
cuboctahedron, icosidodecahedron), the lines list contains the edge
`{from: i, to: j}` with `i < j` exactly when the Euclidean distance between
points `i` and `j` differs from that solid's edge length (`2/φ`, `2`, `√2`,
`1` respectively) by strictly less than `1e-5`; consequently every returned
edge's endpoint distance is within `1e-5` of the analytic edge length. -/
theorem claim1_distance_matched_edges :
    ((∀ i j : ℕ, (i, j) ∈ getDodecahedronPtsLinesFaces.lines ↔
        i < j ∧ j < getDodecahedronPtsLinesFaces.pts.length ∧
        isClose (vdist (getDodecahedronPtsLinesFaces.pts.getD i [])
          (getDodecahedronPtsLinesFaces.pts.getD j [])) (2 / phi)) ∧
      ∀ e ∈ getDodecahedronPtsLinesFaces.lines,
        isClose (vdist (getDodecahedronPtsLinesFaces.pts.getD e.1 [])
          (getDodecahedronPtsLinesFaces.pts.getD e.2 [])) (2 / phi)) ∧
    ((∀ i j : ℕ, (i, j) ∈ getIcosahedronPtsLinesFaces.lines ↔
        i < j ∧ j < getIcosahedronPtsLinesFaces.pts.length ∧
        isClose (vdist (getIcosahedronPtsLinesFaces.pts.getD i [])
          (getIcosahedronPtsLinesFaces.pts.getD j [])) 2) ∧
      ∀ e ∈ getIcosahedronPtsLinesFaces.lines,
        isClose (vdist (getIcosahedronPtsLinesFaces.pts.getD e.1 [])
          (getIcosahedronPtsLinesFaces.pts.getD e.2 [])) 2) ∧
    ((∀ i j : ℕ, (i, j) ∈ getCuboctahedronPtsLinesFaces.lines ↔
        i < j ∧ j < getCuboctahedronPtsLinesFaces.pts.length ∧
        isClose (vdist (getCuboctahedronPtsLinesFaces.pts.getD i [])
          (getCuboctahedronPtsLinesFaces.pts.getD j [])) (Real.sqrt 2)) ∧
      ∀ e ∈ getCuboctahedronPtsLinesFaces.lines,
        isClose (vdist (getCuboctahedronPtsLinesFaces.pts.getD e.1 [])
          (getCuboctahedronPtsLinesFaces.pts.getD e.2 [])) (Real.sqrt 2)) ∧
    ((∀ i j : ℕ, (i, j) ∈ getIcosidodecahedronPtsLinesFaces.lines ↔
        i < j ∧ j < getIcosidodecahedronPtsLinesFaces.pts.length ∧
        isClose (vdist (getIcosidodecahedronPtsLinesFaces.pts.getD i [])
          (getIcosidodecahedronPtsLinesFaces.pts.getD j [])) 1) ∧
      ∀ e ∈ getIcosidodecahedronPtsLinesFaces.lines,
        isClose (vdist (getIcosidodecahedronPtsLinesFaces.pts.getD e.1 [])
          (getIcosidodecahedronPtsLinesFaces.pts.getD e.2 [])) 1) := by
  refine ⟨⟨fun i j => mem_linesFrom, fun e he => ?_⟩,
    ⟨fun i j => mem_linesFrom, fun e he => ?_⟩,
    ⟨fun i j => mem_linesFrom, fun e he => ?_⟩,
    ⟨fun i j => mem_linesFrom, fun e he => ?_⟩⟩ <;>
  · obtain ⟨i, j⟩ := e
    exact (mem_linesFrom.mp he).2.2

theorem dodecaPts_length : dodecaPts.length = 20 := by
  rw [dodecaPts_scaled, List.length_map]
  decide

theorem icosaPts_length : icosaPts.length = 12 := by
  rw [icosaPts_scaled, List.length_map]
  decide

theorem cuboctaPts_length : cuboctaPts.length = 12 := by
  rw [cuboctaPts_scaled, List.length_map]
  decide

theorem icosidodecaPts_length : icosidodecaPts.length = 30 := by
  rw [icosidodecaPts_scaled, List.length_map]
  decide

set_option maxRecDepth 40000 in
theorem dodecaLines_length : dodecaLines.length = 30 := by
  rw [dodecaLines_eq]
  decide

set_option maxRecDepth 40000 in
theorem icosaLines_length : icosaLines.length = 30 := by
  rw [icosaLines_eq]
  decide

set_option maxRecDepth 40000 in
theorem cuboctaLines_length : cuboctaLines.length = 24 := by
  rw [cuboctaLines_eq]
  decide

set_option maxRecDepth 100000 in
theorem icosidodecaLines_length : icosidodecaLines.length = 60 := by
  rw [icosidodecaLines_eq]
  decide

theorem dodecaFaces_length : dodecaFaces.length = 12 := by
  unfold dodecaFaces sgns
  rfl

set_option maxRecDepth 40000 in
theorem icosaFaces_length : icosaFaces.length = 20 := by
  rw [icosaFaces_eq]
  decide

theorem cuboctaFaces_length : (cuboctaSquares ++ cuboctaTriangles).length = 14 := by
  rw [List.length_append]
  have h1 : cuboctaSquares.length = 6 := by
    unfold cuboctaSquares sgns
    rfl
  have h2 : cuboctaTriangles.length = 8 := by
    unfold cuboctaTriangles sgns
    rfl
  rw [h1, h2]

set_option maxRecDepth 100000 in
theorem icosidodecaTriangles_length : icosidodecaTriangles.length = 20 := by
  rw [icosidodecaTriangles_eq]
  decide

theorem icosidodecaFaces_length :
    (icosidodecaTriangles ++ icosidodecaPentagons).length = 32 := by
  rw [List.length_append, icosidodecaTriangles_length]
  have h2 : icosidodecaPentagons.length = 12 := by
    unfold icosidodecaPentagons sgns
    rfl
  rw [h2]

theorem tetra_counts : getTetrahedronPtsLinesFaces.pts.length = 4 ∧
    getTetrahedronPtsLinesFaces.lines.length = 6 ∧
    getTetrahedronPtsLinesFaces.faces.length = 4 := by
  refine ⟨?_, ?_, ?_⟩
  · show ((sgns.flatMap fun a =>
      [[(a : ℝ), 0, -(1 / Real.sqrt 2)], [0, (a : ℝ), 1 / Real.sqrt 2]])).length = 4
    unfold sgns
    rfl
  · show (pairsBelow 4).length = 6
    decide
  · show ((List.range 4).map fun i =>
      (List.range 4).filter fun j => decide (j ≠ i)).length = 4
    decide

/-- C2: each generator returns the solid's combinatorial counts of vertices,
edges and faces: cube 8/12/6, tetrahedron 4/6/4, dodecahedron 20/30/12,
icosahedron 12/30/20, cuboctahedron 12/24/14, icosidodecahedron 30/60/32. -/
theorem claim2_combinatorial_counts :
    (getCubePtsLinesFaces.pts.length = 8 ∧
      getCubePtsLinesFaces.lines.length = 12 ∧
      getCubePtsLinesFaces.faces.length = 6) ∧
    (getTetrahedronPtsLinesFaces.pts.length = 4 ∧
      getTetrahedronPtsLinesFaces.lines.length = 6 ∧
      getTetrahedronPtsLinesFaces.faces.length = 4) ∧
    (getDodecahedronPtsLinesFaces.pts.length = 20 ∧
      getDodecahedronPtsLinesFaces.lines.length = 30 ∧
      getDodecahedronPtsLinesFaces.faces.length = 12) ∧
    (getIcosahedronPtsLinesFaces.pts.length = 12 ∧
      getIcosahedronPtsLinesFaces.lines.length = 30 ∧
      getIcosahedronPtsLinesFaces.faces.length = 20) ∧
    (getCuboctahedronPtsLinesFaces.pts.length = 12 ∧
      getCuboctahedronPtsLinesFaces.lines.length = 24 ∧
      getCuboctahedronPtsLinesFaces.faces.length = 14) ∧
    (getIcosidodecahedronPtsLinesFaces.pts.length = 30 ∧
      getIcosidodecahedronPtsLinesFaces.lines.length = 60 ∧
      getIcosidodecahedronPtsLinesFaces.faces.length = 32) :=
  ⟨⟨by decide, by decide, by decide⟩,
   tetra_counts,
   ⟨dodecaPts_length, dodecaLines_length, dodecaFaces_length⟩,
   ⟨icosaPts_length, icosaLines_length, icosaFaces_length⟩,
   ⟨cuboctaPts_length, cuboctaLines_length, cuboctaFaces_length⟩,
   ⟨icosidodecaPts_length, icosidodecaLines_length, icosidodecaFaces_length⟩⟩

/-- C3: the cube generator's points are exactly the 8 sign combinations
`(±1, ±1, ±1)`, each occurring once (listed in the loop's nesting order);
each of the 12 edges joins two points differing in exactly one coordinate;
and each of the 6 faces holds exactly 4 indices whose points all share one
fixed coordinate value on a common axis. -/
theorem claim3_cube_contents :
    getCubePtsLinesFaces.pts =
      [[-1, -1, -1], [-1, -1, 1], [-1, 1, -1], [-1, 1, 1],
       [1, -1, -1], [1, -1, 1], [1, 1, -1], [1, 1, 1]] ∧
    getCubePtsLinesFaces.lines.length = 12 ∧
    (∀ e ∈ getCubePtsLinesFaces.lines,
      ((List.range 3).filter fun k =>
        decide (¬ (getCubePtsLinesFaces.pts.getD e.1 []).getD k 0 =
          (getCubePtsLinesFaces.pts.getD e.2 []).getD k 0)).length = 1) ∧
    getCubePtsLinesFaces.faces.length = 6 ∧
    (∀ f ∈ getCubePtsLinesFaces.faces, f.length = 4 ∧
      ∃ ax ∈ ([0, 1, 2] : List ℕ), ∃ v ∈ ([-1, 1] : List ℤ),
        ∀ idx ∈ f, (getCubePtsLinesFaces.pts.getD idx []).getD ax 0 = v) := by
  decide

set_option maxRecDepth 200000 in
/-- C9: in every one of the six generators, each emitted edge `{from, to}`
has `from < to` (hence `from ≠ to`) with both endpoints valid indices into
the returned points list, and no unordered pair of indices appears twice in
the edge list. -/
theorem claim9_edge_invariants :
    ((∀ e ∈ getCubePtsLinesFaces.lines,
        e.1 < e.2 ∧ e.2 < getCubePtsLinesFaces.pts.length) ∧
      getCubePtsLinesFaces.lines.Pairwise fun e f =>
        ¬(e.1 = f.1 ∧ e.2 = f.2) ∧ ¬(e.1 = f.2 ∧ e.2 = f.1)) ∧
    ((∀ e ∈ getTetrahedronPtsLinesFaces.lines,
        e.1 < e.2 ∧ e.2 < getTetrahedronPtsLinesFaces.pts.length) ∧
      getTetrahedronPtsLinesFaces.lines.Pairwise fun e f =>
        ¬(e.1 = f.1 ∧ e.2 = f.2) ∧ ¬(e.1 = f.2 ∧ e.2 = f.1)) ∧
    ((∀ e ∈ getDodecahedronPtsLinesFaces.lines,
        e.1 < e.2 ∧ e.2 < getDodecahedronPtsLinesFaces.pts.length) ∧
      getDodecahedronPtsLinesFaces.lines.Pairwise fun e f =>
        ¬(e.1 = f.1 ∧ e.2 = f.2) ∧ ¬(e.1 = f.2 ∧ e.2 = f.1)) ∧
    ((∀ e ∈ getIcosahedronPtsLinesFaces.lines,
        e.1 < e.2 ∧ e.2 < getIcosahedronPtsLinesFaces.pts.length) ∧
      getIcosahedronPtsLinesFaces.lines.Pairwise fun e f =>
        ¬(e.1 = f.1 ∧ e.2 = f.2) ∧ ¬(e.1 = f.2 ∧ e.2 = f.1)) ∧
    ((∀ e ∈ getCuboctahedronPtsLinesFaces.lines,
        e.1 < e.2 ∧ e.2 < getCuboctahedronPtsLinesFaces.pts.length) ∧
      getCuboctahedronPtsLinesFaces.lines.Pairwise fun e f =>
        ¬(e.1 = f.1 ∧ e.2 = f.2) ∧ ¬(e.1 = f.2 ∧ e.2 = f.1)) ∧
    ((∀ e ∈ getIcosidodecahedronPtsLinesFaces.lines,
        e.1 < e.2 ∧ e.2 < getIcosidodecahedronPtsLinesFaces.pts.length) ∧
      getIcosidodecahedronPtsLinesFaces.lines.Pairwise fun e f =>
        ¬(e.1 = f.1 ∧ e.2 = f.2) ∧ ¬(e.1 = f.2 ∧ e.2 = f.1)) := by
  refine ⟨⟨by decide, by decide⟩, ⟨?_, ?_⟩, ⟨?_, ?_⟩, ⟨?_, ?_⟩, ⟨?_, ?_⟩, ⟨?_, ?_⟩⟩
  · show ∀ e ∈ pairsBelow 4, e.1 < e.2 ∧
      e.2 < getTetrahedronPtsLinesFaces.pts.length
    rw [tetra_counts.1]
    decide
  · show (pairsBelow 4).Pairwise _
    decide
  · show ∀ e ∈ dodecaLines, e.1 < e.2 ∧ e.2 < dodecaPts.length
    rw [dodecaLines_eq, dodecaPts_length]
    decide
  · show dodecaLines.Pairwise _
    rw [dodecaLines_eq]
    decide
  · show ∀ e ∈ icosaLines, e.1 < e.2 ∧ e.2 < icosaPts.length
    rw [icosaLines_eq, icosaPts_length]
    decide
  · show icosaLines.Pairwise _
    rw [icosaLines_eq]
    decide
  · show ∀ e ∈ cuboctaLines, e.1 < e.2 ∧ e.2 < cuboctaPts.length
    rw [cuboctaLines_eq, cuboctaPts_length]
    decide
  · show cuboctaLines.Pairwise _
    rw [cuboctaLines_eq]
    decide
  · show ∀ e ∈ icosidodecaLines, e.1 < e.2 ∧ e.2 < icosidodecaPts.length
    rw [icosidodecaLines_eq, icosidodecaPts_length]
    decide
  · show icosidodecaLines.Pairwise _
    rw [icosidodecaLines_eq]
    decide

/-- C4 counterexample: `explodeNDPoints` mutates its input.  On the single
unlabelled input point `(1, 2)` with label list `["a"]`, the input array after
the call differs from the original: the point's `label` was overwritten. -/
theorem claim4_counterexample :
    (explodeNDPoints [⟨[some 1, some 2], none⟩] ["a"] (some 1) (some 2)).1
      ≠ [⟨[some 1, some 2], none⟩] := by
  intro h
  have h0 : ((explodeNDPoints [⟨[some 1, some 2], none⟩] ["a"]
      (some 1) (some 2)).1.getD 0 defaultJP).label = some "a" := by
    simp only [explodeNDPoints]
    rw [List.getD_eq_getElem _ _ (by simp), List.getElem_mapIdx]
    rfl
  rw [h] at h0
  simp at h0

/-- C4 (amended): `perspectiveProjectPoints` really does not modify its
input, but the two explode transforms do — each overwrites every input
point's `label` with `labels[i]` (input coordinates stay untouched).  All
three return a fresh list with one output point per input point, in input
order, the `i`-th output carrying `labels[i]`. -/
theorem claim4_amended (pts : List JPoint) (labels : List String)
    (rMin rMax : Jv) (angles : Option (Jv × Jv)) (doKeepCoords : Bool)
    (minZVal : Option Jv) :
    (perspectiveProjectPoints pts labels minZVal).1 = pts ∧
    (explodeNDPoints pts labels rMin rMax).1
      = pts.mapIdx (fun i pt => { pt with label := labels.get? i }) ∧
    (explode3DPoints pts labels rMin rMax angles doKeepCoords).1
      = pts.mapIdx (fun i pt => { pt with label := labels.get? i }) ∧
    (∀ i, i < pts.length →
      ((explodeNDPoints pts labels rMin rMax).1.getD i defaultJP).coords
        = (pts.getD i defaultJP).coords) ∧
    (perspectiveProjectPoints pts labels minZVal).2.length = pts.length ∧
    (explodeNDPoints pts labels rMin rMax).2.length = pts.length ∧
    (explode3DPoints pts labels rMin rMax angles doKeepCoords).2.length
      = pts.length ∧
    (∀ i, i < pts.length →
      ((perspectiveProjectPoints pts labels minZVal).2.getD i defaultJP).label
        = labels.get? i ∧
      ((explodeNDPoints pts labels rMin rMax).2.getD i defaultJP).label
        = labels.get? i ∧
      ((explode3DPoints pts labels rMin rMax angles
        doKeepCoords).2.getD i defaultJP).label = labels.get? i) := by
  refine ⟨rfl, rfl, rfl, ?_, by simp [perspectiveProjectPoints],
    by simp [explodeNDPoints], by simp [explode3DPoints], ?_⟩
  · intro i hi
    simp only [explodeNDPoints]
    rw [List.getD_eq_getElem _ _ (by simpa using hi), List.getElem_mapIdx,
      List.getD_eq_getElem _ _ hi]
  · intro i hi
    refine ⟨?_, ?_, ?_⟩
    · simp only [perspectiveProjectPoints]
      rw [List.getD_eq_getElem _ _ (by simpa using hi), List.getElem_mapIdx]
    · simp only [explodeNDPoints]
      rw [List.getD_eq_getElem _ _ (by simpa using hi), List.getElem_mapIdx]
    · simp only [explode3DPoints]
      rw [List.getD_eq_getElem _ _ (by simpa using hi), List.getElem_mapIdx]

/-- C5 counterexample: `minZVal` is configurable as 0, and then the claimed
"never zero" fails — on the single input point `(0, 1)` the translated depth
is `0 - 0 + 0 = 0` and the output coordinate `1 / 0` is non-finite. -/
theorem claim5_counterexample :
    perspDepth [⟨[some 0, some 1], none⟩] (some 0) 0 = some 0 ∧
    ((perspectiveProjectPoints [⟨[some 0, some 1], none⟩] ["a"]
      (some (some 0))).2.getD 0 defaultJP).coords = [none] := by
  have hz : jadd (jsub (some (0:ℝ)) (some 0)) (some 0) = some 0 := by
    rw [jsub_some, jadd_some]
    norm_num
  constructor
  · show jadd (jsub (some (0:ℝ)) (some 0)) (some 0) = some 0
    exact hz
  · simp only [perspectiveProjectPoints]
    rw [List.getD_eq_getElem _ _ (by simp), List.getElem_mapIdx]
    show ([some (1:ℝ)].map fun x =>
      jdiv x (jadd (jsub (some (0:ℝ)) (some 0)) (some 0))) = [none]
    rw [hz]
    simp [jdiv_zero_right]

/-- C5 (amended): for realized inputs and EVERY configured `minZVal = m`
(omitting the argument is passing the default 2), the input is unchanged and
each translated depth `z = pt[0] - zMin + m` is a finite value `≥ m`; each
output point is the input tail divided (in JS arithmetic) by its depth, with
dimensionality exactly one less than its input point, carrying `labels[i]`.
When `m` is positive — in particular for the default 2 — the depth is
moreover nonzero and every output component is the finite `x / z`; the
counterexample shows "never zero" indeed fails for `m = 0`. -/
theorem claim5_amended (pts : List JPoint) (cs : List (List ℝ))
    (labels : List String) (m : ℝ)
    (hc : pts.map JPoint.coords = cs.map (List.map some))
    (hne : ∀ c ∈ cs, c ≠ []) :
    perspectiveProjectPoints pts labels none
      = perspectiveProjectPoints pts labels (some (some 2)) ∧
    (perspectiveProjectPoints pts labels (some (some m))).1 = pts ∧
    (perspectiveProjectPoints pts labels (some (some m))).2.length = pts.length ∧
    ∀ i, i < pts.length →
      ∃ z : ℝ, perspDepth pts (some m) i = some z ∧ m ≤ z ∧
        ((perspectiveProjectPoints pts labels (some (some m))).2.getD i
          defaultJP).coords
          = ((cs.getD i []).drop 1).map (fun x => jdiv (some x) (some z)) ∧
        ((perspectiveProjectPoints pts labels
            (some (some m))).2.getD i defaultJP).coords.length + 1
          = (cs.getD i []).length ∧
        ((perspectiveProjectPoints pts labels (some (some m))).2.getD i
          defaultJP).label = labels.get? i ∧
        (0 < m → z ≠ 0 ∧
          ((perspectiveProjectPoints pts labels (some (some m))).2.getD i
            defaultJP).coords
            = ((cs.getD i []).drop 1).map (fun x => some (x / z))) :=
  ⟨persp_default pts labels, (persp_spec_general pts cs labels m hc hne).1,
   (persp_spec_general pts cs labels m hc hne).2.1,
   (persp_spec_general pts cs labels m hc hne).2.2⟩

/-- Witness for C5 at the two concrete points `(0,1)` and `(1,2)` with the
default depth bound 2. -/
theorem claim5_witness :
    (perspectiveProjectPoints
      [⟨[some 0, some 1], none⟩, ⟨[some 1, some 2], none⟩]
      ["a", "b"] (some (some 2))).2.length = 2 :=
  (claim5_amended [⟨[some 0, some 1], none⟩, ⟨[some 1, some 2], none⟩]
    [[0, 1], [1, 2]] ["a", "b"] 2 rfl (by simp)).2.2.1

/-- Witness for C6 at the concrete well-formed string `"#0a1b2c"`. -/
theorem claim6_witness :
    ∃ rgb : List ℚ, getStdColor "#0a1b2c" = rgb.map some ∧
      getColorStr [] (some rgb) = "#0a1b2c" :=
  claim6_color_roundtrip "#0a1b2c" [] ⟨rfl, rfl, by decide⟩

/-- C7 counterexample: the radius formula can be negative — the claim's
"norm equals the radius" fails then, since a Euclidean norm is nonnegative.
With `rMin = rMax = -1` and admissible input (two points with distinct first
coordinates 0 and 1, non-depth tails of length 1), the first output point is
`(-1)`, whose norm is `1`, while the claimed radius
`rMin + (rMax - rMin)·(x - xMin)/(xMax - xMin)` is `-1 ≠ 1`. -/
theorem claim7_counterexample :
    ((explodeNDPoints [⟨[some 0, some 1], none⟩, ⟨[some 1, some 1], none⟩]
      ["a", "b"] (some (-1)) (some (-1))).2.getD 0 defaultJP).coords
        = [some (-1)] ∧
    vlen [(-1 : ℝ)] = 1 ∧
    ((-1 : ℝ) + ((-1) - (-1)) * ((0 : ℝ) - 0) / (1 - 0)) = -1 ∧
    (1 : ℝ) ≠ -1 := by
  refine ⟨?_, ?_, by norm_num, by norm_num⟩
  · have hmins : jmins (([⟨[some 0, some 1], none⟩, ⟨[some 1, some 1], none⟩] :
        List JPoint).map fun p => p.coords.getD 0 none) = some 0 := by
      show some (min (0:ℝ) 1) = some 0
      norm_num
    have hmaxs : jmaxs (([⟨[some 0, some 1], none⟩, ⟨[some 1, some 1], none⟩] :
        List JPoint).map fun p => p.coords.getD 0 none) = some 1 := by
      show some (max (0:ℝ) 1) = some 1
      norm_num
    simp only [explodeNDPoints]
    rw [List.getD_eq_getElem _ _ (by simp), List.getElem_mapIdx]
    simp only [hmins, hmaxs]
    show [jmul (jdiv (some 1) (jsqrt (jsum [jmul (some 1) (some 1)])))
      (jadd (some (-1)) (jdiv (jmul (jsub (some (-1)) (some (-1)))
        (jsub (some 0) (some 0))) (jsub (some 1) (some 0))))] = [some (-1)]
    have s1 : jsub (some (-1:ℝ)) (some (-1)) = some 0 := by
      rw [jsub_some]
      norm_num
    have s2 : jsub (some (0:ℝ)) (some 0) = some 0 := by
      rw [jsub_some]
      norm_num
    have s3 : jsub (some (1:ℝ)) (some 0) = some 1 := by
      rw [jsub_some]
      norm_num
    have m1 : jmul (some (0:ℝ)) (some 0) = some 0 := by
      rw [jmul_some]
      norm_num
    have d1 : jdiv (some (0:ℝ)) (some 1) = some 0 := by
      rw [jdiv_some _ _ one_ne_zero]
      norm_num
    have a1 : jadd (some (-1:ℝ)) (some 0) = some (-1) := by
      rw [jadd_some]
      norm_num
    have q1 : jmul (some (1:ℝ)) (some 1) = some 1 := by
      rw [jmul_some]
      norm_num
    have q2 : jsum [(some (1:ℝ) : Jv)] = some 1 := by
      show jadd (some 0) (some 1) = some 1
      rw [jadd_some]
      norm_num
    have q3 : jsqrt (some (1:ℝ)) = some 1 := by
      rw [jsqrt_some _ (by norm_num), Real.sqrt_one]
    have q4 : jdiv (some (1:ℝ)) (some 1) = some 1 := by
      rw [jdiv_some _ _ one_ne_zero]
      norm_num
    have q5 : jmul (some (1:ℝ)) (some (-1)) = some (-1) := by
      rw [jmul_some]
      norm_num
    rw [s1, s2, s3, m1, d1, a1, q1, q2, q3, q4, q5]
  · unfold vlen
    norm_num [Real.sqrt_one]

/-- C7 (amended): the claimed radius/norm/label property of the two explode
transforms holds once the radius bounds are required to be NONNEGATIVE (and
exactly, not merely within a tolerance): on realized admissible input — no
zero-length non-depth tail, first coordinates not all equal — each output
point's Euclidean norm is exactly
`rMin + (rMax - rMin)·(x - xMin)/(xMax - xMin)` for its point's original
first coordinate `x`, the point counts match, and output `i` carries
`labels[i]`. -/
theorem claim7_amended :
    (∀ (pts : List JPoint) (cs : List (List ℝ)) (labels : List String)
      (rMin rMax : ℝ),
      pts.map JPoint.coords = cs.map (List.map some) →
      (∀ c ∈ cs, c ≠ []) →
      (∀ c ∈ cs, ((c.drop 1).map (fun x => x * x)).sum ≠ 0) →
      (∃ c1 ∈ cs, ∃ c2 ∈ cs, c1.getD 0 0 ≠ c2.getD 0 0) →
      0 ≤ rMin → 0 ≤ rMax →
      ∃ xm xM : ℝ,
        jmins (pts.map fun p => p.coords.getD 0 none) = some xm ∧
        jmaxs (pts.map fun p => p.coords.getD 0 none) = some xM ∧
        xm < xM ∧
        (explodeNDPoints pts labels (some rMin) (some rMax)).2.length
          = pts.length ∧
        ∀ i, i < pts.length →
          ∃ rc : List ℝ,
            ((explodeNDPoints pts labels (some rMin)
              (some rMax)).2.getD i defaultJP).coords = rc.map some ∧
            vlen rc
              = rMin + (rMax - rMin) * ((cs.getD i []).getD 0 0 - xm) / (xM - xm) ∧
            ((explodeNDPoints pts labels (some rMin)
              (some rMax)).2.getD i defaultJP).label = labels.get? i) ∧
    (∀ (pts : List JPoint) (cs : List (List ℝ)) (labels : List String)
      (rMin rMax : ℝ) (rangles : Option (ℝ × ℝ)) (doKeepCoords : Bool),
      pts.map JPoint.coords = cs.map (List.map some) →
      (∀ c ∈ cs, c.length = 3) →
      (∀ c ∈ cs, c.getD 1 0 * c.getD 1 0 + c.getD 2 0 * c.getD 2 0 ≠ 0) →
      (∃ c1 ∈ cs, ∃ c2 ∈ cs, c1.getD 0 0 ≠ c2.getD 0 0) →
      0 ≤ rMin → 0 ≤ rMax →
      ∃ xm xM : ℝ,
        jmins (pts.map fun p => p.coords.getD 0 none) = some xm ∧
        jmaxs (pts.map fun p => p.coords.getD 0 none) = some xM ∧
        xm < xM ∧
        (explode3DPoints pts labels (some rMin) (some rMax)
          (rangles.map (fun ab => (some ab.1, some ab.2))) doKeepCoords).2.length
          = pts.length ∧
        ∀ i, i < pts.length →
          ∃ rc : List ℝ,
            ((explode3DPoints pts labels (some rMin) (some rMax)
              (rangles.map (fun ab => (some ab.1, some ab.2)))
                doKeepCoords).2.getD i defaultJP).coords = rc.map some ∧
            vlen rc
              = rMin + (rMax - rMin) * ((cs.getD i []).getD 0 0 - xm) / (xM - xm) ∧
            ((explode3DPoints pts labels (some rMin) (some rMax)
              (rangles.map (fun ab => (some ab.1, some ab.2)))
                doKeepCoords).2.getD i defaultJP).label = labels.get? i) :=
  ⟨fun pts cs labels rMin rMax hc hne htail hx hr1 hr2 =>
      explodeND_spec pts cs labels rMin rMax hc hne htail hx hr1 hr2,
   fun pts cs labels rMin rMax rangles doKeepCoords hc h3 htail hx hr1 hr2 =>
      explode3D_spec pts cs labels rMin rMax rangles doKeepCoords hc h3 htail
        hx hr1 hr2⟩

/-- C8: a point lying exactly on the depth axis (non-depth coordinates of
zero Euclidean length) does not make either explode transform fail: the call
completes and that point's output components are all non-finite. -/
theorem claim8_zero_length_nonfinite :
    (∀ (pts : List JPoint) (labels : List String) (rMin rMax : Jv) (i : ℕ)
      (hi : i < pts.length) (rtail : List ℝ),
      (pts[i]).coords.drop 1 = rtail.map some →
      (rtail.map (fun x => x * x)).sum = 0 →
      ((explodeNDPoints pts labels rMin rMax).2.getD i defaultJP).coords
        = rtail.map (fun _ => none)) ∧
    (∀ (pts : List JPoint) (labels : List String) (rMin rMax : Jv)
      (angles : Option (Jv × Jv)) (doKeepCoords : Bool) (i : ℕ)
      (hi : i < pts.length) (y z : ℝ),
      (pts[i]).coords.getD 1 none = some y →
      (pts[i]).coords.getD 2 none = some z →
      y * y + z * z = 0 →
      ((explode3DPoints pts labels rMin rMax angles doKeepCoords).2.getD
        i defaultJP).coords = [none, none]) :=
  ⟨fun pts labels rMin rMax i hi rtail hq hzero =>
      explodeND_zero_len pts labels rMin rMax i hi rtail hq hzero,
   fun pts labels rMin rMax angles doKeepCoords i hi y z h1 h2 hzero =>
      explode3D_zero_len pts labels rMin rMax angles doKeepCoords i hi y z
        h1 h2 hzero⟩

/-- Witness for C8: the 3D explode of the single point `(1, 0, 0)` (on the
depth axis) completes with a fully non-finite output point. -/
theorem claim8_witness :
    ((explode3DPoints [⟨[some 1, some 0, some 0], none⟩] ["a"] (some 0) (some 1)
      none true).2.getD 0 defaultJP).coords = [none, none] :=
  claim8_zero_length_nonfinite.2 [⟨[some 1, some 0, some 0], none⟩] ["a"]
    (some 0) (some 1) none true 0 (by simp) 0 0 rfl rfl (by norm_num)

/-- C10: when every input point has the same first coordinate, the radius
remap's denominator `xMax - xMin` is zero; both explode transforms still
complete, and every component of every output point is non-finite. -/
theorem claim10_const_x_nonfinite :
    (∀ (pts : List JPoint) (labels : List String) (rMin rMax : Jv) (x0 : ℝ),
      (∀ p ∈ pts, p.coords.getD 0 none = some x0) →
      ∀ (i : ℕ) (hi : i < pts.length),
        ((explodeNDPoints pts labels rMin rMax).2.getD i defaultJP).coords
          = ((pts[i]).coords.drop 1).map (fun _ => none)) ∧
    (∀ (pts : List JPoint) (labels : List String) (rMin rMax : Jv)
        (angles : Option (Jv × Jv)) (doKeepCoords : Bool) (x0 : ℝ),
      (∀ p ∈ pts, p.coords.getD 0 none = some x0) →
      ∀ i, i < pts.length →
        ((explode3DPoints pts labels rMin rMax angles doKeepCoords).2.getD
          i defaultJP).coords = [none, none]) :=
  ⟨fun pts labels rMin rMax x0 hall i hi =>
      explodeND_const_x pts labels rMin rMax x0 hall i hi,
   fun pts labels rMin rMax angles doKeepCoords x0 hall i hi =>
      explode3D_const_x pts labels rMin rMax angles doKeepCoords x0 hall i hi⟩

/-- Witness for C10: both points share the first coordinate 1; the output
point's single component is non-finite. -/
theorem claim10_witness :
    ((explodeNDPoints [⟨[some 1, some 2], none⟩, ⟨[some 1, some 3], none⟩]
      ["a", "b"] (some 0) (some 1)).2.getD 0 defaultJP).coords = [none] :=
  claim10_const_x_nonfinite.1 [⟨[some 1, some 2], none⟩, ⟨[some 1, some 3], none⟩]
    ["a", "b"] (some 0) (some 1) 1
    (by
      intro p hp
      simp at hp
      rcases hp with h | h <;> subst h <;> rfl)
    0 (by simp)

end Truth
